import Mathlib

/-!
Verification of the Rtain container runtime (daemon core) against its
natural-language specification.  Each section embeds one part of the Rust
source shallowly in Lean: strings are lists of characters, machine integers
are Nat/Int with explicit range checks, fallible Rust functions return an
explicit result type, and the debug-profile semantics of integer overflow
(a panic) is modelled by a dedicated result constructor.
-/

/-- Result of running a fallible Rust function under the debug profile:
`ok` mirrors `Ok`, `err` mirrors `Err` carrying the error message produced
through `anyhow` or a `String` error, and `panicked` marks executions that
hit an arithmetic-overflow panic or a failed `unwrap`. -/
inductive RRes (α : Type) where
  | ok (val : α)
  | err (msg : String)
  | panicked
deriving Repr, DecidableEq

/-- Characters of a Rust string (the string as a list of `char`s). -/
def str (s : String) : List Char := s.data

/-! ## Memory size parser (`src/core/cmd.rs`, `parse_memory_size`) -/

/-- Embedding of Rust `char::is_whitespace`: membership in the Unicode
White_Space set, written out by code point. -/
def rustIsWhitespace (c : Char) : Bool :=
  [0x09, 0x0A, 0x0B, 0x0C, 0x0D, 0x20, 0x85, 0xA0, 0x1680,
   0x2000, 0x2001, 0x2002, 0x2003, 0x2004, 0x2005, 0x2006, 0x2007,
   0x2008, 0x2009, 0x200A, 0x2028, 0x2029, 0x202F, 0x205F, 0x3000].contains c.toNat

/-- Embedding of Rust `str::trim`: drop whitespace from both ends. -/
def rustTrim (s : List Char) : List Char :=
  ((s.dropWhile rustIsWhitespace).reverse.dropWhile rustIsWhitespace).reverse

/-- Embedding of Rust `char::to_lowercase` on the ASCII range (the memory
parser only distinguishes ASCII letters and digits; theorems that quantify
over inputs restrict them to ASCII, where this model is exact). -/
def rustToLowerChar (c : Char) : Char :=
  if 65 ≤ c.toNat ∧ c.toNat ≤ 90 then Char.ofNat (c.toNat + 32) else c

/-- Embedding of Rust `char::is_digit(10)`: an ASCII decimal digit. -/
def isDigit10 (c : Char) : Bool :=
  decide (48 ≤ c.toNat ∧ c.toNat ≤ 57)

/-- Whether a Rust string ends with the one-character pattern `c`
(`str::ends_with`). -/
def endsWithChar (t : List Char) (c : Char) : Bool :=
  decide (t.getLast? = some c)

/-- Numeric value of a list of decimal digit characters. -/
def digitsToNat (ds : List Char) : Nat :=
  ds.foldl (fun a c => a * 10 + (c.toNat - 48)) 0

/-- Embedding of Rust `str::parse::<i64>` (`i64::from_str`): an optional
sign followed by one or more ASCII digits, with an i64 range check; the
error strings are the `Display` renderings of `ParseIntError`. -/
def rustParseI64 (s : List Char) : Except String Int :=
  if s.isEmpty then .error "cannot parse integer from empty string"
  else
    let sd : Int × List Char :=
      match s with
      | c :: rest => if c = '+' then (1, rest) else if c = '-' then (-1, rest) else (1, s)
      | [] => (1, [])
    let sign := sd.1
    let ds := sd.2
    if ds.isEmpty then .error "invalid digit found in string"
    else if ds.all isDigit10 then
      let v : Int := sign * (digitsToNat ds : Nat)
      if v < -(2 ^ 63) then .error "number too small to fit in target type"
      else if v > 2 ^ 63 - 1 then .error "number too large to fit in target type"
      else .ok v
    else .error "invalid digit found in string"

/-- Checked i64 multiplication: under the debug profile an overflowing
`number * multiplier` panics. -/
def checkedMulI64 (a b : Int) : RRes Int :=
  if -(2 ^ 63) ≤ a * b ∧ a * b ≤ 2 ^ 63 - 1 then .ok (a * b) else .panicked

/-- Embedding of `parse_memory_size` from `src/core/cmd.rs`: trim and
lowercase the input, pick a multiplier from a trailing `g`/`m`/`k`
(otherwise require the whole input to be decimal digits), then parse the
numeric part as i64 and multiply.  The spec error `InvalidMemory` is the
code path returning the string `Invalid memory size`. -/
def parse_memory_size (input : List Char) : RRes Int :=
  let t := (rustTrim input).map rustToLowerChar
  let sel : Option (List Char × Int) :=
    if endsWithChar t 'g' then some (t.dropLast, 1024 * 1024 * 1024)
    else if endsWithChar t 'm' then some (t.dropLast, 1024 * 1024)
    else if endsWithChar t 'k' then some (t.dropLast, 1024)
    else if t.all isDigit10 then some (t, 1)
    else none
  match sel with
  | none => .err "Invalid memory size"
  | some (number, multiplier) =>
    match rustParseI64 number with
    | .error e => .err e
    | .ok n => checkedMulI64 n multiplier


/-! ## Container metadata model (`src/core/metas/meta.rs`) -/

/-- Embedding of `ContainerStatus`. -/
inductive ContainerStatus where
  | creating | running | paused | restarting | removing | exited | dead
deriving Repr, DecidableEq

/-- Embedding of `HealthStatus`. -/
inductive HealthStatus where
  | unknown | starting | healthy | unhealthy
deriving Repr, DecidableEq

/-- Embedding of `ContainerState`. -/
structure ContainerState where
  status : ContainerStatus
  pid : Option Int
  started_at : Option Nat
  finished_at : Option Nat
  exit_code : Option Int
  error : Option String
  restart_count : Nat
  health_status : HealthStatus
deriving Repr, DecidableEq

/-- Embedding of `NetworkConfig`; the port `HashMap` becomes an association
list. -/
structure NetworkConfig where
  ip_address : Option String
  network_name : String
  mac_address : Option String
  ports : List (Nat × Nat)
deriving Repr, DecidableEq

/-- Embedding of `ResourceConfig`; the `f64` cpu limit is modelled over the
rationals (no claim in this development depends on float rounding). -/
structure ResourceConfig where
  memory_limit : Option Nat
  cpu_limit : Option Rat
  pids_limit : Option Nat
  disk_limit : Option Nat
deriving Repr, DecidableEq

/-- Embedding of `MountType`. -/
inductive MountType where
  | bind | volume | tmpfs
deriving Repr, DecidableEq

/-- Embedding of `MountPoint`. -/
structure MountPoint where
  source : String
  destination : String
  mount_type : MountType
  read_only : Bool
deriving Repr, DecidableEq

/-- Embedding of `ContainerMeta`; `HashMap` fields become association
lists. -/
structure ContainerMeta where
  id : String
  name : String
  created_at : Nat
  updated_at : Nat
  image : String
  command : List String
  args : List String
  working_dir : Option String
  user : Option String
  env : List (String × String)
  labels : List (String × String)
  state : ContainerState
  network : Option NetworkConfig
  resources : ResourceConfig
  mounts : List MountPoint
deriving Repr, DecidableEq

/-- Embedding of `ContainerMeta::new`; the wall-clock `current_time()` is
passed in as `time`. -/
def ContainerMeta.new (id name image : String) (command args : List String)
    (time : Nat) : ContainerMeta :=
  { id := id
    name := name
    created_at := time
    updated_at := time
    image := image
    command := command
    args := args
    working_dir := none
    user := none
    env := []
    labels := []
    state :=
      { status := .creating
        pid := none
        started_at := none
        finished_at := none
        exit_code := none
        error := none
        restart_count := 0
        health_status := .unknown }
    network := none
    resources :=
      { memory_limit := none
        cpu_limit := none
        pids_limit := none
        disk_limit := none }
    mounts := [] }

/-- Embedding of `StorageOperation` (`src/core/metas/storage.rs`). -/
inductive StorageOperation where
  | create (meta : ContainerMeta)
  | delete (id : String)
  | updateStatus (id : String) (status : ContainerStatus)
  | updateState (id : String) (state : ContainerState)
  | updateEnvironment (id : String) (env : List (String × String))
  | updateLabels (id : String) (labels : List (String × String))
  | updateResources (id : String) (resources : ResourceConfig)
  | attachNetwork (id : String) (network : NetworkConfig)
  | detachNetwork (id : String)
  | addMount (id : String) (mount : MountPoint)
  | removeMount (id : String) (destination : String)
  | batch (ops : List StorageOperation)
deriving Repr

/-- Lookup in a `DashMap` modelled as an association list. -/
def mapGet {α : Type} (k : String) (m : List (String × α)) : Option α :=
  (m.find? fun p => decide (p.1 = k)).map Prod.snd

/-- Whether an association list holds a key. -/
def hasKey {α : Type} (k : String) (m : List (String × α)) : Bool :=
  m.any fun p => decide (p.1 = k)

/-- Embedding of `DashMap::insert`: replace the value under an existing
key, otherwise add a fresh entry. -/
def mapInsert {α : Type} (k : String) (v : α) (m : List (String × α)) :
    List (String × α) :=
  if hasKey k m then m.map fun p => if p.1 = k then (k, v) else p
  else (k, v) :: m

/-- Embedding of `DashMap::remove`: drop the entry under a key. -/
def mapRemove {α : Type} (k : String) (m : List (String × α)) :
    List (String × α) :=
  m.filter fun p => decide (p.1 ≠ k)

/-- Embedding of `InnerState`: the primary record map and the
name-to-id index. -/
structure InnerState where
  by_id : List (String × ContainerMeta)
  by_name : List (String × String)
deriving Repr, DecidableEq

/-- The empty `InnerState` (`InnerState::default()`). -/
def InnerState.empty : InnerState := { by_id := [], by_name := [] }

/-- Embedding of the `by_id.get_mut(&id)` update pattern shared by every
field-update arm of `apply_operation`: mutate the record under `id` when it
exists, otherwise do nothing. -/
def modifyById (st : InnerState) (id : String)
    (f : ContainerMeta → ContainerMeta) : InnerState :=
  match mapGet id st.by_id with
  | some _ =>
    { st with by_id := st.by_id.map fun p => if p.1 = id then (p.1, f p.2) else p }
  | none => st

mutual
/-- Embedding of `InnerState::apply_operation`; the wall clock read by
`current_time()` is passed in as `now`. -/
def apply_operation (st : InnerState) (now : Nat) :
    StorageOperation → Except String InnerState
  | .create meta =>
    .ok { st with by_name := mapInsert meta.name meta.id st.by_name,
                  by_id := mapInsert meta.id meta st.by_id }
  | .delete id =>
    match mapGet id st.by_id with
    | some meta =>
      .ok { st with by_id := mapRemove id st.by_id,
                    by_name := mapRemove meta.name st.by_name }
    | none => .ok st
  | .updateStatus id status =>
    .ok (modifyById st id fun m =>
      { m with state := { m.state with status := status }, updated_at := now })
  | .updateState id state =>
    .ok (modifyById st id fun m => { m with state := state, updated_at := now })
  | .updateEnvironment id env =>
    .ok (modifyById st id fun m => { m with env := env, updated_at := now })
  | .updateLabels id labels =>
    .ok (modifyById st id fun m => { m with labels := labels, updated_at := now })
  | .updateResources id resources =>
    .ok (modifyById st id fun m => { m with resources := resources, updated_at := now })
  | .attachNetwork id network =>
    .ok (modifyById st id fun m => { m with network := some network, updated_at := now })
  | .detachNetwork id =>
    .ok (modifyById st id fun m => { m with network := none, updated_at := now })
  | .addMount id mount =>
    .ok (modifyById st id fun m => { m with mounts := m.mounts ++ [mount], updated_at := now })
  | .removeMount id destination =>
    .ok (modifyById st id fun m =>
      { m with mounts := m.mounts.filter fun mp => decide (mp.destination ≠ destination),
               updated_at := now })
  | .batch ops => apply_operations st now ops

/-- Embedding of the `Batch` loop inside `apply_operation`: apply the
operations in order, stopping at the first error. -/
def apply_operations (st : InnerState) (now : Nat) :
    List StorageOperation → Except String InnerState
  | [] => .ok st
  | op :: rest =>
    match apply_operation st now op with
    | .ok st' => apply_operations st' now rest
    | .error e => .error e
end


/-! ## Storage actor (`src/core/metas/storage.rs`, `start_background_worker`)
and WAL (`src/core/metas/wal.rs`) -/

/-- One turn of the storage actor loop in `start_background_worker`: the
WAL is modelled as the list of decoded operations in `current.wal`, the
outcome of `wal.write_operation` (which depends on the filesystem) is the
parameter `walWrite`, and the triple returned is the acknowledgement sent
over the `oneshot` channel together with the new WAL and in-memory state. -/
def worker_step (wal : List StorageOperation) (st : InnerState) (now : Nat)
    (op : StorageOperation) (walWrite : Except String Unit) :
    Except String Unit × List StorageOperation × InnerState :=
  match walWrite with
  | .error e => (.error e, wal, st)
  | .ok _ =>
    match apply_operation st now op with
    | .ok st' => (.ok (), wal ++ [op], st')
    | .error e => (.error e, wal ++ [op], st)

mutual
/-- Embedding of `WalManager::validate_operation`: `Create` needs a
non-empty id and name, `UpdateStatus`, `UpdateState` and `Delete` need a
non-empty id, `Batch` validates its children, every other operation is
accepted by the wildcard arm. -/
def validate_operation : StorageOperation → Except String Unit
  | .create meta =>
    if meta.id = "" ∨ meta.name = "" then
      .error "Container ID or name cannot be empty"
    else .ok ()
  | .updateStatus id _ =>
    if id = "" then .error "Container ID cannot be empty" else .ok ()
  | .updateState id _ =>
    if id = "" then .error "Container ID cannot be empty" else .ok ()
  | .delete id =>
    if id = "" then .error "Container ID cannot be empty" else .ok ()
  | .batch ops => validate_operations ops
  | _ => .ok ()

/-- The `Batch` loop of `validate_operation`: stop at the first error. -/
def validate_operations : List StorageOperation → Except String Unit
  | [] => .ok ()
  | op :: rest =>
    match validate_operation op with
    | .ok _ => validate_operations rest
    | .error e => .error e
end

/-- Embedding of `WalError` (the `anyhow::Error` is its message). -/
structure WalError where
  index : Nat
  operation : StorageOperation
  error : String
deriving Repr

/-- Embedding of `IntegrityReport`. -/
structure IntegrityReport where
  errors : List WalError
  total_operations : Nat
deriving Repr

/-- Embedding of `WalManager::verify_integrity`: the WAL is the list of
decoded operations of `current.wal` (indexed from 0 exactly as
`read_all_operations` indexes them). -/
def verify_integrity (wal : List StorageOperation) : IntegrityReport :=
  { total_operations := wal.length
    errors := wal.enum.filterMap fun p =>
      match validate_operation p.2 with
      | .error e => some ⟨p.1, p.2, e⟩
      | .ok _ => none }

/-- Embedding of `IntegrityReport::is_valid`. -/
def IntegrityReport.is_valid (r : IntegrityReport) : Bool :=
  r.errors.isEmpty

/-- Embedding of `IntegrityReport::error_count`. -/
def IntegrityReport.error_count (r : IntegrityReport) : Nat :=
  r.errors.length

/-- Embedding of `IntegrityReport::success_rate`, with the `f64` division
modelled over the rationals. -/
def IntegrityReport.success_rate (r : IntegrityReport) : Rat :=
  if r.total_operations = 0 then 1
  else 1 - (r.errors.length : Rat) / (r.total_operations : Rat)

/-! ## Name-uniqueness invariant of `InnerState` -/

/-- Well-formedness of an `InnerState`: record ids and names are unique,
`by_name` is exactly the name-to-id view of `by_id`, and the two maps have
the same size. -/
def StateWF (st : InnerState) : Prop :=
  (st.by_id.map Prod.fst).Nodup ∧
  (st.by_name.map Prod.fst).Nodup ∧
  (∀ n i, (n, i) ∈ st.by_name ↔ ∃ m, (i, m) ∈ st.by_id ∧ m.name = n) ∧
  st.by_name.length = st.by_id.length

mutual
/-- Freshness discipline on creates: a `Create` only registers an id not
already in `by_id` and a name not already in `by_name` (the states that the
daemon produces, which generates a fresh random id per container). -/
def freshOp (st : InnerState) (now : Nat) : StorageOperation → Bool
  | .create meta => !hasKey meta.id st.by_id && !hasKey meta.name st.by_name
  | .batch ops => freshOps st now ops
  | _ => true

/-- List version of `freshOp`, threading the state through the batch. -/
def freshOps (st : InnerState) (now : Nat) : List StorageOperation → Bool
  | [] => true
  | op :: rest =>
    freshOp st now op &&
      match apply_operation st now op with
      | .ok st' => freshOps st' now rest
      | .error _ => true
end


/-- Convenience projection: the state of a successful apply (the failure
branch is dead code, `apply_operation` always returns `Ok`). -/
def stOf (r : Except String InnerState) : InnerState :=
  match r with
  | .ok st => st
  | .error _ => InnerState.empty

/-! ## Log file paths (`src/core/container/list.rs` `show_logs`,
`src/core/container/init.rs` `do_run`) -/

/-- The daemon root directory constant `ROOT_PATH` (`src/core/mod.rs`). -/
def ROOT_PATH : List Char := str "/tmp/rtain"

/-- The path `show_logs` reads for a container:
`ROOT_PATH/(name)-(id)/stdout.log`. -/
def show_logs_path (name id : List Char) : List Char :=
  (ROOT_PATH ++ '/' :: (name ++ '-' :: id)) ++ str "/stdout.log"

/-- The path the detached-run log writer in `do_run` truncates and fills:
`ROOT_PATH/(name)-(id)/log.log`. -/
def do_run_log_path (name id : List Char) : List Char :=
  (ROOT_PATH ++ '/' :: (name ++ '-' :: id)) ++ str "/log.log"

/-! ## Volume specifications (`src/core/container/image.rs`) -/

/-- Embedding of Rust `str::split(sep)`: the fragments between occurrences
of the separator (always at least one fragment). -/
def rustSplit (sep : Char) : List Char → List (List Char)
  | [] => [[]]
  | c :: rest =>
    let r := rustSplit sep rest
    if c = sep then [] :: r
    else
      match r with
      | [] => [[c]]
      | h :: t => (c :: h) :: t

/-- Embedding of `str::strip_prefix("/")`: the remainder when the string
starts with a slash. -/
def strip_slash (s : List Char) : Option (List Char) :=
  match s with
  | c :: rest => if c = '/' then some rest else none
  | [] => none

/-- Path computation of `mount_volume`: joins the mount root with the
container half of the volume stripped of its leading slash; the `unwrap`
panics when that half does not start with `/`.  (The directory creation and
the `MS_BIND` mount syscall are external effects; the returned path is the
bind-mount target.) -/
def mount_volume_path (mnt_path : List Char) (volume_path : List (List Char)) :
    RRes (List Char) :=
  match strip_slash (volume_path.getD 1 []) with
  | some rel => .ok (mnt_path ++ '/' :: rel)
  | none => .panicked

/-- The volume-handling tail of `new_workspace`: split the specification on
`:`, require exactly two non-empty halves, then mount; a malformed
specification is an `Invalid volume` error.  Returns the bind-mount target
when a volume is mounted. -/
def new_workspace_volume (mnt_path : List Char) (volume : Option (List Char)) :
    RRes (Option (List Char)) :=
  match volume with
  | none => .ok none
  | some vol =>
    let sv := rustSplit ':' vol
    if sv.length = 2 ∧ sv.getD 0 [] ≠ [] ∧ sv.getD 1 [] ≠ [] then
      match mount_volume_path mnt_path sv with
      | .ok contv => .ok (some contv)
      | .err e => .err e
      | .panicked => .panicked
    else .err ("Invalid volume: " ++ String.mk vol)

/-! ## IP address management (`src/core/network/ipam.rs`) -/

/-- Embedding of one IPv4 octet of Rust's `Ipv4Addr` parser: one to three
decimal digits, no leading zero, value at most 255. -/
def parse_octet (s : List Char) : Option Nat :=
  if s.isEmpty then none
  else if ¬ s.all isDigit10 then none
  else if 1 < s.length ∧ s.headI = '0' then none
  else if 255 < digitsToNat s then none
  else some (digitsToNat s)

/-- Embedding of `str::parse::<Ipv4Addr>`: four octets separated by dots,
returned as the 32-bit big-endian value. -/
def rustParseIpv4 (s : List Char) : Option Nat :=
  match rustSplit '.' s with
  | [a, b, c, d] =>
    match parse_octet a, parse_octet b, parse_octet c, parse_octet d with
    | some x, some y, some z, some w => some (((x * 256 + y) * 256 + z) * 256 + w)
    | _, _, _, _ => none
  | _ => none

/-- Embedding of `str::parse::<u32>` (`u32::from_str`): an optional `+`
followed by one or more digits, with the u32 range check. -/
def rustParseU32 (s : List Char) : Except String Nat :=
  if s.isEmpty then .error "cannot parse integer from empty string"
  else
    let ds := match s with
      | c :: rest => if c = '+' then rest else s
      | [] => []
    if ds.isEmpty then .error "invalid digit found in string"
    else if ds.all isDigit10 then
      if 2 ^ 32 - 1 < digitsToNat ds then .error "number too large to fit in target type"
      else .ok (digitsToNat ds)
    else .error "invalid digit found in string"

/-- Embedding of `str::split_once(sep)`: the parts before and after the
first occurrence of the separator. -/
def split_once (sep : Char) : List Char → Option (List Char × List Char)
  | [] => none
  | c :: rest =>
    if c = sep then some ([], rest)
    else
      match split_once sep rest with
      | some (a, b) => some (c :: a, b)
      | none => none

/-- Embedding of `IPAM::parse_cidr`: split `a.b.c.d/p` at the slash, parse
the address and the prefix length, and reject prefixes above 32.  The
result carries the address as its u32 value. -/
def parse_cidr (cidr : List Char) : RRes (Nat × Nat) :=
  match split_once '/' cidr with
  | none => .err "Invalid CIDR"
  | some (ip_str, len_str) =>
    match rustParseIpv4 ip_str with
    | none => .err "invalid IPv4 address syntax"
    | some ip =>
      match rustParseU32 len_str with
      | .error e => .err e
      | .ok len => if 32 < len then .err "Invalid prefix length" else .ok (ip, len)

/-- The u32 computation `2u32.pow(32 - prefix_len) - 2` of `add_subnet`
under debug-profile checks: the power overflows for prefix 0 and the
subtraction underflows for prefix 32, both panics. -/
def total_ips_u32 (p : Nat) : Option Nat :=
  if 2 ^ 32 - 1 < 2 ^ (32 - p) then none
  else if 2 ^ (32 - p) < 2 then none
  else some (2 ^ (32 - p) - 2)

/-- The u32 mask `!((1u32 << (32 - prefix_len)) - 1)`, that is
`2^32 - 2^(32-p)`; the shift overflows (a debug panic) for prefix 0. -/
def rust_mask_u32 (p : Nat) : Option Nat :=
  if 32 ≤ 32 - p then none
  else some (2 ^ 32 - 2 ^ (32 - p))

/-- Checked u32 subtraction: `none` is the debug-profile underflow
panic. -/
def checkedSubU32 (a b : Nat) : Option Nat :=
  if b ≤ a then some (a - b) else none

/-- Embedding of `IPAM`: each subnet's `BitVec<u8>` bitmap becomes a list
of booleans indexed like the bit vector. -/
structure IPAM where
  subnets : List (String × List Bool)
deriving Repr, DecidableEq

/-- Embedding of `IPAM::empty`. -/
def IPAM.empty : IPAM := ⟨[]⟩

/-- Embedding of `IPAM::add_subnet`: reject a duplicate CIDR, parse,
compute the bitmap size, and insert an all-zero bitmap. -/
def add_subnet (pam : IPAM) (cidr : String) : RRes IPAM :=
  if hasKey cidr pam.subnets then .err "Subnet already exists"
  else
    match parse_cidr cidr.data with
    | .err e => .err e
    | .panicked => .panicked
    | .ok (_, prefix_len) =>
      match total_ips_u32 prefix_len with
      | none => .panicked
      | some total => .ok ⟨mapInsert cidr (List.replicate total false) pam.subnets⟩

/-- Embedding of `BitSlice::first_zero`: the index of the lowest clear
bit. -/
def first_zero : List Bool → Option Nat
  | [] => none
  | b :: rest => if b then (first_zero rest).map (· + 1) else some 0

/-- Embedding of `IPAM::calculate_ip`: re-parse the CIDR and return
`(subnet & mask) + index`, a u32 addition. -/
def calculate_ip (cidr : List Char) (index : Nat) : RRes Nat :=
  match parse_cidr cidr with
  | .err e => .err e
  | .panicked => .panicked
  | .ok (subnet, prefix_len) =>
    match rust_mask_u32 prefix_len with
    | none => .panicked
    | some mask => .ok (((subnet &&& mask) + index) % 2 ^ 32)

/-- Embedding of `IPAM::allocate_ip`: find the lowest clear bit of the
subnet's bitmap, set it, and compute the address.  The pair carries the
bitmap state exactly as the source mutates it (the bit is set before
`calculate_ip` runs). -/
def allocate_ip (pam : IPAM) (cidr : String) : RRes Nat × IPAM :=
  match mapGet cidr pam.subnets with
  | none => (.err "Subnet not found", pam)
  | some bitmap =>
    match first_zero bitmap with
    | some pos =>
      (calculate_ip cidr.data (pos + 1),
       ⟨mapInsert cidr (bitmap.set pos true) pam.subnets⟩)
    | none => (.err "No available IP", pam)

/-- Embedding of `IPAM::ip_to_index`: check that the address shares the
subnet's masked prefix, then compute `ip - subnet_ip - 1` with u32
subtractions (which panic on underflow under the debug profile). -/
def ip_to_index (subnet_ip target_ip prefix_len : Nat) : RRes Nat :=
  match rust_mask_u32 prefix_len with
  | none => .panicked
  | some mask =>
    if (subnet_ip &&& mask) ≠ (target_ip &&& mask) then .err "IP not in subnet"
    else
      match checkedSubU32 target_ip subnet_ip with
      | none => .panicked
      | some d =>
        match checkedSubU32 d 1 with
        | none => .panicked
        | some idx => .ok idx

/-- Embedding of `IPAM::release_ip`: parse, locate the bit index, bounds-
and allocation-check it, then clear it. -/
def release_ip (pam : IPAM) (cidr : String) (ip : Nat) : RRes Unit × IPAM :=
  match parse_cidr cidr.data with
  | .err e => (.err e, pam)
  | .panicked => (.panicked, pam)
  | .ok sp =>
    match ip_to_index sp.1 ip sp.2 with
    | .err e => (.err e, pam)
    | .panicked => (.panicked, pam)
    | .ok pos =>
      match mapGet cidr pam.subnets with
      | none => (.err "Subnet not found", pam)
      | some bitmap =>
        if bitmap.length ≤ pos then (.err "IP out of range", pam)
        else if bitmap.getD pos false = false then (.err "IP not allocated", pam)
        else (.ok (), ⟨mapInsert cidr (bitmap.set pos false) pam.subnets⟩)

/-- Invariant of every IPAM the API can build: subnet keys are unique and
each stored CIDR parses with a prefix the arithmetic of `add_subnet`
admits (1 to 31), its bitmap having exactly `2^(32-p) - 2` bits. -/
def GoodIpam (pam : IPAM) : Prop :=
  (pam.subnets.map Prod.fst).Nodup ∧
  ∀ cidr bm, (cidr, bm) ∈ pam.subnets →
    ∃ ip p, parse_cidr cidr.data = .ok (ip, p) ∧ 1 ≤ p ∧ p ≤ 31 ∧
      ip < 2 ^ 32 ∧ bm.length = 2 ^ (32 - p) - 2

/-! ## Theorems -/

theorem dropWhile_eq_self_of_false {p : Char → Bool} {s : List Char}
    (h : ∀ c ∈ s, p c = false) : s.dropWhile p = s := by
  cases s with
  | nil => rfl
  | cons x xs => simp [List.dropWhile_cons, h x (by simp)]

theorem rustTrim_eq_self {s : List Char}
    (h : ∀ c ∈ s, rustIsWhitespace c = false) : rustTrim s = s := by
  unfold rustTrim
  rw [dropWhile_eq_self_of_false h,
    dropWhile_eq_self_of_false (fun c hc => h c (List.mem_reverse.mp hc)),
    List.reverse_reverse]

theorem isDigit10_range {c : Char} (h : isDigit10 c = true) :
    48 ≤ c.toNat ∧ c.toNat ≤ 57 := by
  simpa [isDigit10] using h

theorem isDigit10_not_ws {c : Char} (h : isDigit10 c = true) :
    rustIsWhitespace c = false := by
  obtain ⟨h1, h2⟩ := isDigit10_range h
  simp [rustIsWhitespace]
  omega

theorem rustToLowerChar_of_digit {c : Char} (h : isDigit10 c = true) :
    rustToLowerChar c = c := by
  obtain ⟨h1, h2⟩ := isDigit10_range h
  simp [rustToLowerChar]
  omega

theorem map_lower_of_digits {ds : List Char} (h : ds.all isDigit10 = true) :
    ds.map rustToLowerChar = ds :=
by
  induction ds with
  | nil => rfl
  | cons c cs ih =>
    simp only [List.all_cons, Bool.and_eq_true] at h
    simp [rustToLowerChar_of_digit h.1, ih h.2]

theorem endsWithChar_false_of_digits {ds : List Char} (h : ds.all isDigit10 = true)
    {c : Char} (hc : 57 < c.toNat) : endsWithChar ds c = false := by
  unfold endsWithChar
  cases hl : ds.getLast? with
  | none => simp
  | some l =>
    have hm : l ∈ ds := List.mem_of_mem_getLast? (by simp [hl])
    have hd := (isDigit10_range (List.all_eq_true.mp h l hm)).2
    simp only [decide_eq_false_iff_not]
    intro he
    have : l = c := by injection he
    subst this
    omega

theorem parse_memory_size_spec :
    parse_memory_size (str "0") = .ok 0 ∧
    parse_memory_size (str "  100m  ") = .ok (100 * 1048576) ∧
    parse_memory_size (str "") = .err "cannot parse integer from empty string" ∧
    parse_memory_size (str "-1") = .err "Invalid memory size" ∧
    parse_memory_size (str "100x") = .err "Invalid memory size" ∧
    parse_memory_size (str "-1k") = .ok (-1024) ∧
    (∀ s : List Char,
      endsWithChar ((rustTrim s).map rustToLowerChar) 'g' = false →
      endsWithChar ((rustTrim s).map rustToLowerChar) 'm' = false →
      endsWithChar ((rustTrim s).map rustToLowerChar) 'k' = false →
      ((rustTrim s).map rustToLowerChar).all isDigit10 = false →
      parse_memory_size s = .err "Invalid memory size") ∧
    (∀ ds : List Char, ds ≠ [] → ds.all isDigit10 = true →
      (digitsToNat ds : Int) ≤ 2 ^ 63 - 1 →
      parse_memory_size ds = .ok (digitsToNat ds)) := by
  refine ⟨by decide, by decide, by decide, by decide, by decide, by decide, ?_, ?_⟩
  · intro s h1 h2 h3 h4
    simp [parse_memory_size, h1, h2, h3, h4]
  · intro ds hne hdig hbound
    have htrim : rustTrim ds = ds :=
      rustTrim_eq_self fun c hc => isDigit10_not_ws (List.all_eq_true.mp hdig c hc)
    have hmap : ds.map rustToLowerChar = ds := map_lower_of_digits hdig
    have hg : endsWithChar ds 'g' = false := endsWithChar_false_of_digits hdig (by decide)
    have hm : endsWithChar ds 'm' = false := endsWithChar_false_of_digits hdig (by decide)
    have hk : endsWithChar ds 'k' = false := endsWithChar_false_of_digits hdig (by decide)
    obtain ⟨c, rest, rfl⟩ : ∃ c rest, ds = c :: rest := by
      cases ds with
      | nil => exact absurd rfl hne
      | cons c rest => exact ⟨c, rest, rfl⟩
    have hc : isDigit10 c = true := List.all_eq_true.mp hdig c (by simp)
    obtain ⟨hc1, hc2⟩ := isDigit10_range hc
    have hplus : c ≠ '+' := by intro h; subst h; simp at hc1
    have hminus : c ≠ '-' := by intro h; subst h; simp at hc1
    simp only [parse_memory_size, htrim, hmap, hg, hm, hk, hdig, if_true, if_false,
      Bool.false_eq_true, ite_false, ite_true]
    simp only [rustParseI64, List.isEmpty_cons, hplus, hminus, if_false, ite_false,
      Bool.false_eq_true, hdig, ite_true, one_mul]
    have hnn : (0 : Int) ≤ (digitsToNat (c :: rest) : Int) := Int.ofNat_nonneg _
    rw [if_neg (by omega), if_neg (by omega)]
    simp [checkedMulI64]
    omega

/-- C4 counterexample: the input `-1k` denotes a negative memory size, yet
`parse_memory_size` accepts it and returns `-1024` instead of failing with
`InvalidMemory` — the sign check only happens on suffix-less inputs, since a
trailing unit makes the numeric part go straight to `i64` parsing. -/
theorem parse_memory_size_negative_accepted :
    parse_memory_size (str "-1k") = .ok (-1024) ∧
    parse_memory_size (str "-1k") ≠ .err "Invalid memory size" := by
  exact ⟨by decide, by decide⟩

/-- Closed witness for `parse_memory_size_spec`: instantiates the universally
quantified parts at `zz` (unknown trailing letter) and at the digit string
`7`, discharging every hypothesis by evaluation. -/
theorem parse_memory_size_spec_witness :
    parse_memory_size (str "zz") = .err "Invalid memory size" ∧
    parse_memory_size (str "7") = .ok 7 := by
  constructor
  · exact parse_memory_size_spec.2.2.2.2.2.2.1 (str "zz")
      (by decide) (by decide) (by decide) (by decide)
  · have h := parse_memory_size_spec.2.2.2.2.2.2.2 (str "7")
      (by decide) (by decide) (by decide)
    rwa [show digitsToNat (str "7") = 7 from rfl] at h

mutual
/-- The source `InnerState::apply_operation` returns `Ok` on every arm (the
only `?` is the recursive batch call), so it never fails. -/
theorem apply_operation_ok (st : InnerState) (now : Nat) (op : StorageOperation) :
    ∃ st', apply_operation st now op = .ok st' := by
  cases op with
  | create meta => exact ⟨_, rfl⟩
  | delete id =>
    cases h : mapGet id st.by_id with
    | some meta =>
      refine ⟨InnerState.mk (mapRemove id st.by_id) (mapRemove meta.name st.by_name), ?_⟩
      simp only [apply_operation, h]
    | none =>
      refine ⟨st, ?_⟩
      simp only [apply_operation, h]
  | updateStatus id status => exact ⟨_, rfl⟩
  | updateState id state => exact ⟨_, rfl⟩
  | updateEnvironment id env => exact ⟨_, rfl⟩
  | updateLabels id labels => exact ⟨_, rfl⟩
  | updateResources id resources => exact ⟨_, rfl⟩
  | attachNetwork id network => exact ⟨_, rfl⟩
  | detachNetwork id => exact ⟨_, rfl⟩
  | addMount id mount => exact ⟨_, rfl⟩
  | removeMount id destination => exact ⟨_, rfl⟩
  | batch ops => exact apply_operations_ok st now ops

/-- List version of `apply_operation_ok`. -/
theorem apply_operations_ok (st : InnerState) (now : Nat) (ops : List StorageOperation) :
    ∃ st', apply_operations st now ops = .ok st' := by
  cases ops with
  | nil => exact ⟨st, rfl⟩
  | cons op rest =>
    obtain ⟨st1, h1⟩ := apply_operation_ok st now op
    obtain ⟨st2, h2⟩ := apply_operations_ok st1 now rest
    exact ⟨st2, by simp [apply_operations, h1, h2]⟩
end

/-- C1: one turn of the storage actor.  If the operation commits (the
acknowledgement is `Ok`), the WAL has gained exactly that operation and the
in-memory state is the result of applying it; if the WAL append fails, the
same error is acknowledged to the caller and neither the WAL nor the state
changes.  The final conjunct shows the in-memory apply step itself never
fails, so a WAL failure is the only uncommitted outcome. -/
theorem worker_step_wal_then_memory :
    ∀ (wal : List StorageOperation) (st : InnerState) (now : Nat)
      (op : StorageOperation) (walWrite : Except String Unit),
    ((worker_step wal st now op walWrite).1 = .ok () →
      (worker_step wal st now op walWrite).2.1 = wal ++ [op] ∧
      op ∈ (worker_step wal st now op walWrite).2.1 ∧
      apply_operation st now op = .ok (worker_step wal st now op walWrite).2.2) ∧
    (∀ e, walWrite = .error e →
      (worker_step wal st now op walWrite).1 = .error e ∧
      (worker_step wal st now op walWrite).2.1 = wal ∧
      (worker_step wal st now op walWrite).2.2 = st) ∧
    (∃ st', apply_operation st now op = .ok st') := by
  intro wal st now op walWrite
  obtain ⟨st', hap⟩ := apply_operation_ok st now op
  refine ⟨?_, ?_, ⟨st', hap⟩⟩
  · intro hok
    cases walWrite with
    | error e => simp [worker_step] at hok
    | ok u => simp [worker_step, hap] at hok ⊢
  · intro e he
    subst he
    simp [worker_step]

/-- Closed witness for `worker_step_wal_then_memory` at a concrete
operation, with one successful and one failing WAL write. -/
theorem worker_step_wal_then_memory_witness :
    ((worker_step [] InnerState.empty 0 (.delete "c") (.ok ())).2.1 = [.delete "c"] ∧
      .delete "c" ∈ (worker_step [] InnerState.empty 0 (.delete "c") (.ok ())).2.1 ∧
      apply_operation InnerState.empty 0 (.delete "c") =
        .ok (worker_step [] InnerState.empty 0 (.delete "c") (.ok ())).2.2) ∧
    ((worker_step [] InnerState.empty 0 (.delete "c") (.error "io")).1 = .error "io" ∧
      (worker_step [] InnerState.empty 0 (.delete "c") (.error "io")).2.1 = [] ∧
      (worker_step [] InnerState.empty 0 (.delete "c") (.error "io")).2.2 = InnerState.empty) :=
  ⟨(worker_step_wal_then_memory [] InnerState.empty 0 (.delete "c") (.ok ())).1 rfl,
   (worker_step_wal_then_memory [] InnerState.empty 0 (.delete "c") (.error "io")).2.1 "io" rfl⟩

/-- C9: every operation other than `Create` addressed at an id absent from
`by_id` is acknowledged as a success while the state is left entirely
unchanged — `apply_operation` reports `Ok`, not a not-found error. -/
theorem apply_operation_missing_id_noop :
    ∀ (st : InnerState) (now : Nat) (id : String),
      mapGet id st.by_id = none →
      ∀ (status : ContainerStatus) (state : ContainerState)
        (env labels : List (String × String)) (resources : ResourceConfig)
        (network : NetworkConfig) (mount : MountPoint) (destination : String),
      apply_operation st now (.updateStatus id status) = .ok st ∧
      apply_operation st now (.updateState id state) = .ok st ∧
      apply_operation st now (.updateEnvironment id env) = .ok st ∧
      apply_operation st now (.updateLabels id labels) = .ok st ∧
      apply_operation st now (.updateResources id resources) = .ok st ∧
      apply_operation st now (.attachNetwork id network) = .ok st ∧
      apply_operation st now (.detachNetwork id) = .ok st ∧
      apply_operation st now (.addMount id mount) = .ok st ∧
      apply_operation st now (.removeMount id destination) = .ok st ∧
      apply_operation st now (.delete id) = .ok st := by
  intro st now id h status state env labels resources network mount destination
  refine ⟨?_, ?_, ?_, ?_, ?_, ?_, ?_, ?_, ?_, ?_⟩ <;>
    simp [apply_operation, modifyById, h]

/-- Closed witness for `apply_operation_missing_id_noop` on the empty
state. -/
theorem apply_operation_missing_id_noop_witness :
    apply_operation InnerState.empty 0 (.updateStatus "x" .running) = .ok InnerState.empty ∧
    apply_operation InnerState.empty 0 (.delete "x") = .ok InnerState.empty :=
  ⟨(apply_operation_missing_id_noop InnerState.empty 0 "x" rfl .running
      ⟨.creating, none, none, none, none, none, 0, .unknown⟩ [] [] ⟨none, none, none, none⟩
      ⟨none, "net", none, []⟩ ⟨"/h", "/c", .bind, false⟩ "/c").1,
   (apply_operation_missing_id_noop InnerState.empty 0 "x" rfl .running
      ⟨.creating, none, none, none, none, none, 0, .unknown⟩ [] [] ⟨none, none, none, none⟩
      ⟨none, "net", none, []⟩ ⟨"/h", "/c", .bind, false⟩ "/c").2.2.2.2.2.2.2.2.2⟩

/-! ### Association-list lemmas for the `DashMap` model -/

theorem mem_of_mapGet_some {α : Type} {k : String} {v : α} {m : List (String × α)}
    (h : mapGet k m = some v) : (k, v) ∈ m := by
  unfold mapGet at h
  cases hf : m.find? (fun p => decide (p.1 = k)) with
  | none => simp [hf] at h
  | some p =>
    have hm := List.mem_of_find?_eq_some hf
    have hp := List.find?_some hf
    simp only [decide_eq_true_eq] at hp
    simp only [hf, Option.map_some'] at h
    obtain ⟨p1, p2⟩ := p
    cases hp
    cases h
    exact hm

theorem not_mem_of_hasKey_false {α : Type} {k : String} {m : List (String × α)}
    (h : hasKey k m = false) : ∀ v, (k, v) ∉ m := by
  intro v hv
  have : m.any (fun p => decide (p.1 = k)) = true :=
    List.any_eq_true.mpr ⟨(k, v), hv, by simp⟩
  rw [hasKey] at h
  rw [h] at this
  cases this

theorem not_mem_keys_of_hasKey_false {α : Type} {k : String} {m : List (String × α)}
    (h : hasKey k m = false) : k ∉ m.map Prod.fst := by
  intro hk
  obtain ⟨p, hp, hpk⟩ := List.mem_map.mp hk
  have : (k, p.2) ∈ m := by
    have hpe : p = (k, p.2) := by
      obtain ⟨p1, p2⟩ := p
      simp at hpk
      rw [hpk]
    rw [← hpe]
    exact hp
  exact not_mem_of_hasKey_false h p.2 this

theorem mapInsert_fresh {α : Type} {k : String} (v : α) {m : List (String × α)}
    (h : hasKey k m = false) : mapInsert k v m = (k, v) :: m := by
  simp [mapInsert, h]

theorem keys_inj {α : Type} {m : List (String × α)} (hnd : (m.map Prod.fst).Nodup)
    {k : String} {a b : α} (ha : (k, a) ∈ m) (hb : (k, b) ∈ m) : a = b := by
  induction m with
  | nil => simp at ha
  | cons p rest ih =>
    rw [List.map_cons, List.nodup_cons] at hnd
    rcases List.mem_cons.mp ha with h1 | h1 <;> rcases List.mem_cons.mp hb with h2 | h2
    · rw [← h1] at h2
      exact (congrArg Prod.snd h2).symm
    · exfalso
      exact hnd.1 (h1 ▸ List.mem_map.mpr ⟨(k, b), h2, rfl⟩)
    · exfalso
      exact hnd.1 (h2 ▸ List.mem_map.mpr ⟨(k, a), h1, rfl⟩)
    · exact ih hnd.2 h1 h2

theorem mem_mapRemove_iff {α : Type} {k : String} {m : List (String × α)}
    {p : String × α} : p ∈ mapRemove k m ↔ p ∈ m ∧ p.1 ≠ k := by
  simp [mapRemove, List.mem_filter]

theorem mapRemove_sublist {α : Type} (k : String) (m : List (String × α)) :
    (mapRemove k m).Sublist m :=
  List.filter_sublist m

theorem keys_mapRemove_nodup {α : Type} {k : String} {m : List (String × α)}
    (h : (m.map Prod.fst).Nodup) : ((mapRemove k m).map Prod.fst).Nodup :=
  h.sublist ((mapRemove_sublist k m).map Prod.fst)

theorem mapRemove_length {α : Type} {k : String} {v : α} {m : List (String × α)}
    (hnd : (m.map Prod.fst).Nodup) (hm : (k, v) ∈ m) :
    (mapRemove k m).length + 1 = m.length := by
  induction m with
  | nil => simp at hm
  | cons p rest ih =>
    rw [List.map_cons, List.nodup_cons] at hnd
    rcases List.mem_cons.mp hm with h1 | h1
    · have hpk : p.1 = k := by rw [← h1]
      have hrest : mapRemove k (p :: rest) = mapRemove k rest := by
        simp [mapRemove, List.filter_cons, hpk]
      have hall : mapRemove k rest = rest := by
        apply List.filter_eq_self.mpr
        intro q hq
        simp only [decide_eq_true_eq]
        intro hqk
        apply hnd.1
        rw [hpk, ← hqk]
        exact List.mem_map.mpr ⟨q, hq, rfl⟩
      rw [hrest, hall]
      simp
    · have hpk : p.1 ≠ k := by
        intro he
        exact hnd.1 (he ▸ List.mem_map.mpr ⟨(k, v), h1, rfl⟩)
      have : mapRemove k (p :: rest) = p :: mapRemove k rest := by
        simp [mapRemove, List.filter_cons, hpk]
      rw [this]
      simp only [List.length_cons]
      rw [← ih hnd.2 h1]

theorem keys_modify {α : Type} (m : List (String × α)) (id : String) (f : α → α) :
    ((m.map fun p => if p.1 = id then (p.1, f p.2) else p).map Prod.fst) =
      m.map Prod.fst := by
  rw [List.map_map]
  apply List.map_congr_left
  intro p _
  by_cases hp : p.1 = id <;> simp [hp]

/-! ### Preservation of the name-uniqueness invariant -/

theorem wf_create {st : InnerState} {meta : ContainerMeta} (h : StateWF st)
    (hid : hasKey meta.id st.by_id = false)
    (hname : hasKey meta.name st.by_name = false) :
    StateWF ⟨mapInsert meta.id meta st.by_id,
             mapInsert meta.name meta.id st.by_name⟩ := by
  obtain ⟨h1, h2, h3, h4⟩ := h
  unfold StateWF
  simp only [mapInsert_fresh meta hid, mapInsert_fresh meta.id hname]
  refine ⟨?_, ?_, ?_, ?_⟩
  · rw [List.map_cons, List.nodup_cons]
    exact ⟨not_mem_keys_of_hasKey_false hid, h1⟩
  · rw [List.map_cons, List.nodup_cons]
    exact ⟨not_mem_keys_of_hasKey_false hname, h2⟩
  · intro n i
    constructor
    · intro hn
      rcases List.mem_cons.mp hn with he | hold
      · have hn1 : n = meta.name := congrArg Prod.fst he
        have hn2 : i = meta.id := congrArg Prod.snd he
        subst hn1
        subst hn2
        exact ⟨meta, List.mem_cons_self _ _, rfl⟩
      · obtain ⟨m', hm', hmn⟩ := (h3 n i).mp hold
        exact ⟨m', List.mem_cons_of_mem _ hm', hmn⟩
    · rintro ⟨m', hm', hmn⟩
      rcases List.mem_cons.mp hm' with he | hold
      · have hi : i = meta.id := congrArg Prod.fst he
        have hm : m' = meta := congrArg Prod.snd he
        subst hi
        subst hm
        apply List.mem_cons.mpr
        left
        rw [← hmn]
      · apply List.mem_cons.mpr
        right
        exact (h3 n i).mpr ⟨m', hold, hmn⟩
  · simp [h4]

theorem wf_delete {st : InnerState} {id : String} {meta : ContainerMeta}
    (h : StateWF st) (hget : mapGet id st.by_id = some meta) :
    StateWF ⟨mapRemove id st.by_id, mapRemove meta.name st.by_name⟩ := by
  obtain ⟨h1, h2, h3, h4⟩ := h
  have hmem : (id, meta) ∈ st.by_id := mem_of_mapGet_some hget
  have hnb : (meta.name, id) ∈ st.by_name := (h3 meta.name id).mpr ⟨meta, hmem, rfl⟩
  refine ⟨keys_mapRemove_nodup h1, keys_mapRemove_nodup h2, ?_, ?_⟩
  · intro n i
    constructor
    · intro hn
      obtain ⟨hold, hne⟩ := mem_mapRemove_iff.mp hn
      obtain ⟨m', hm', hmn⟩ := (h3 n i).mp hold
      have hii : i ≠ id := by
        intro he
        subst he
        have hme := keys_inj h1 hm' hmem
        exact hne (by simp only at hne ⊢; rw [← hmn, hme])
      exact ⟨m', mem_mapRemove_iff.mpr ⟨hm', hii⟩, hmn⟩
    · rintro ⟨m', hm', hmn⟩
      obtain ⟨hold, hne⟩ := mem_mapRemove_iff.mp hm'
      have hnn : n ≠ meta.name := by
        intro he
        subst he
        have hb : (m'.name, i) ∈ st.by_name := (h3 m'.name i).mpr ⟨m', hold, rfl⟩
        rw [hmn] at hb
        exact hne (keys_inj h2 hb hnb)
      exact mem_mapRemove_iff.mpr ⟨(h3 n i).mpr ⟨m', hold, hmn⟩, hnn⟩
  · have e1 := mapRemove_length h1 hmem
    have e2 := mapRemove_length h2 hnb
    simp only at e1 e2 ⊢
    omega

theorem wf_modify {st : InnerState} {id : String} {f : ContainerMeta → ContainerMeta}
    (hf : ∀ m, (f m).name = m.name) (h : StateWF st) :
    StateWF (modifyById st id f) := by
  cases hget : mapGet id st.by_id with
  | none =>
    unfold modifyById
    rw [hget]
    exact h
  | some m0 =>
    obtain ⟨h1, h2, h3, h4⟩ := h
    unfold modifyById
    rw [hget]
    refine ⟨?_, h2, ?_, ?_⟩
    · rw [keys_modify]
      exact h1
    · intro n i
      rw [h3 n i]
      constructor
      · rintro ⟨m', hm', hmn⟩
        have hmem := List.mem_map_of_mem
          (fun p : String × ContainerMeta => if p.1 = id then (p.1, f p.2) else p) hm'
        by_cases hi : i = id
        · refine ⟨f m', ?_, by rw [hf, hmn]⟩
          simpa [hi] using hmem
        · refine ⟨m', ?_, hmn⟩
          simpa [hi] using hmem
      · rintro ⟨m'', hm'', hmn⟩
        obtain ⟨q, hq, hqe⟩ := List.mem_map.mp hm''
        obtain ⟨q1, q2⟩ := q
        by_cases hq1 : q1 = id
        · rw [if_pos (by exact hq1)] at hqe
          have he1 : q1 = i := congrArg Prod.fst hqe
          have he2 : f q2 = m'' := congrArg Prod.snd hqe
          refine ⟨q2, ?_, ?_⟩
          · rw [← he1]
            exact hq
          · rw [← hmn, ← he2, hf]
        · rw [if_neg (by exact hq1)] at hqe
          have he1 : q1 = i := congrArg Prod.fst hqe
          have he2 : q2 = m'' := congrArg Prod.snd hqe
          refine ⟨q2, ?_, ?_⟩
          · rw [← he1]
            exact hq
          · rw [← hmn, ← he2]
    · simp [h4]

mutual
/-- Operations applied under the create-freshness discipline preserve
`StateWF`. -/
theorem apply_op_wf (st : InnerState) (now : Nat) (op : StorageOperation)
    (hw : StateWF st) (hf : freshOp st now op = true) :
    ∀ st', apply_operation st now op = .ok st' → StateWF st' := by
  cases op with
  | create meta =>
    intro st' h'
    simp only [freshOp, Bool.and_eq_true, Bool.not_eq_true'] at hf
    simp only [apply_operation, Except.ok.injEq] at h'
    subst h'
    exact wf_create hw hf.1 hf.2
  | delete id =>
    intro st' h'
    cases hget : mapGet id st.by_id with
    | some meta =>
      simp only [apply_operation, hget, Except.ok.injEq] at h'
      subst h'
      exact wf_delete hw hget
    | none =>
      simp only [apply_operation, hget, Except.ok.injEq] at h'
      subst h'
      exact hw
  | updateStatus id status =>
    intro st' h'
    simp only [apply_operation, Except.ok.injEq] at h'
    subst h'
    exact wf_modify (fun m => rfl) hw
  | updateState id state =>
    intro st' h'
    simp only [apply_operation, Except.ok.injEq] at h'
    subst h'
    exact wf_modify (fun m => rfl) hw
  | updateEnvironment id env =>
    intro st' h'
    simp only [apply_operation, Except.ok.injEq] at h'
    subst h'
    exact wf_modify (fun m => rfl) hw
  | updateLabels id labels =>
    intro st' h'
    simp only [apply_operation, Except.ok.injEq] at h'
    subst h'
    exact wf_modify (fun m => rfl) hw
  | updateResources id resources =>
    intro st' h'
    simp only [apply_operation, Except.ok.injEq] at h'
    subst h'
    exact wf_modify (fun m => rfl) hw
  | attachNetwork id network =>
    intro st' h'
    simp only [apply_operation, Except.ok.injEq] at h'
    subst h'
    exact wf_modify (fun m => rfl) hw
  | detachNetwork id =>
    intro st' h'
    simp only [apply_operation, Except.ok.injEq] at h'
    subst h'
    exact wf_modify (fun m => rfl) hw
  | addMount id mount =>
    intro st' h'
    simp only [apply_operation, Except.ok.injEq] at h'
    subst h'
    exact wf_modify (fun m => rfl) hw
  | removeMount id destination =>
    intro st' h'
    simp only [apply_operation, Except.ok.injEq] at h'
    subst h'
    exact wf_modify (fun m => rfl) hw
  | batch ops =>
    intro st' h'
    simp only [apply_operation] at h'
    simp only [freshOp] at hf
    exact apply_ops_wf st now ops hw hf st' h'

/-- List version of `apply_op_wf`, threading the state through a batch. -/
theorem apply_ops_wf (st : InnerState) (now : Nat) (ops : List StorageOperation)
    (hw : StateWF st) (hf : freshOps st now ops = true) :
    ∀ st', apply_operations st now ops = .ok st' → StateWF st' := by
  cases ops with
  | nil =>
    intro st' h'
    simp only [apply_operations, Except.ok.injEq] at h'
    subst h'
    exact hw
  | cons op rest =>
    intro st' h'
    simp only [freshOps, Bool.and_eq_true] at hf
    obtain ⟨hf1, hf2⟩ := hf
    obtain ⟨st1, h1⟩ := apply_operation_ok st now op
    rw [h1] at hf2
    simp only [apply_operations, h1] at h'
    have hw1 := apply_op_wf st now op hw hf1 st1 h1
    exact apply_ops_wf st1 now rest hw1 hf2 st' h'
end

/-- C2 (amended): starting from the empty state, any sequence of storage
operations whose `Create`s always use a fresh id and a fresh name keeps
container names unique among live records: `by_name` has exactly as many
entries as `by_id` has live records, and two live records never share a
name.  (Without the freshness discipline the claim fails, see the
counterexample: `apply_operation` never rejects a duplicate name.) -/
theorem inner_state_name_unique :
    ∀ (ops : List StorageOperation) (now : Nat) (st' : InnerState),
      freshOps InnerState.empty now ops = true →
      apply_operations InnerState.empty now ops = .ok st' →
      st'.by_name.length = st'.by_id.length ∧
      (∀ i1 m1 i2 m2, (i1, m1) ∈ st'.by_id → (i2, m2) ∈ st'.by_id →
        m1.name = m2.name → i1 = i2) := by
  intro ops now st' hf ha
  have hwf0 : StateWF InnerState.empty := by
    refine ⟨List.nodup_nil, List.nodup_nil, ?_, rfl⟩
    intro n i
    simp [InnerState.empty]
  obtain ⟨h1, h2, h3, h4⟩ := apply_ops_wf InnerState.empty now ops hwf0 hf st' ha
  refine ⟨h4, ?_⟩
  intro i1 m1 i2 m2 hm1 hm2 hname
  have hb1 : (m1.name, i1) ∈ st'.by_name := (h3 m1.name i1).mpr ⟨m1, hm1, rfl⟩
  have hb2 : (m1.name, i2) ∈ st'.by_name := (h3 m1.name i2).mpr ⟨m2, hm2, hname.symm⟩
  exact keys_inj h2 hb1 hb2

/-- Closed witness for `inner_state_name_unique`: two creates under fresh
names, with every hypothesis discharged by evaluation. -/
theorem inner_state_name_unique_witness :
    ([("n2", "id2"), ("n1", "id1")] : List (String × String)).length =
      ([("id2", ContainerMeta.new "id2" "n2" "img" [] [] 0),
        ("id1", ContainerMeta.new "id1" "n1" "img" [] [] 0)] :
          List (String × ContainerMeta)).length :=
  (inner_state_name_unique
    [.create (ContainerMeta.new "id1" "n1" "img" [] [] 0),
     .create (ContainerMeta.new "id2" "n2" "img" [] [] 0)] 0
    ⟨[("id2", ContainerMeta.new "id2" "n2" "img" [] [] 0),
      ("id1", ContainerMeta.new "id1" "n1" "img" [] [] 0)],
     [("n2", "id2"), ("n1", "id1")]⟩
    (by decide) rfl).1

/-- C2 counterexample: two `Create`s reusing the name `n` under distinct ids
leave BOTH records live in `by_id` while `by_name` keeps a single entry, so
the number of `by_name` entries (1) differs from the number of live records
carrying a name (2) and uniqueness is violated. -/
theorem create_duplicate_name_counterexample :
    (stOf (apply_operations InnerState.empty 0
      [.create (ContainerMeta.new "id1" "n" "img" [] [] 0),
       .create (ContainerMeta.new "id2" "n" "img" [] [] 0)])).by_name.length = 1 ∧
    (stOf (apply_operations InnerState.empty 0
      [.create (ContainerMeta.new "id1" "n" "img" [] [] 0),
       .create (ContainerMeta.new "id2" "n" "img" [] [] 0)])).by_id.length = 2 ∧
    mapGet "id1" (stOf (apply_operations InnerState.empty 0
      [.create (ContainerMeta.new "id1" "n" "img" [] [] 0),
       .create (ContainerMeta.new "id2" "n" "img" [] [] 0)])).by_id =
      some (ContainerMeta.new "id1" "n" "img" [] [] 0) ∧
    mapGet "id2" (stOf (apply_operations InnerState.empty 0
      [.create (ContainerMeta.new "id1" "n" "img" [] [] 0),
       .create (ContainerMeta.new "id2" "n" "img" [] [] 0)])).by_id =
      some (ContainerMeta.new "id2" "n" "img" [] [] 0) ∧
    (ContainerMeta.new "id1" "n" "img" [] [] 0).name =
      (ContainerMeta.new "id2" "n" "img" [] [] 0).name := by
  refine ⟨rfl, rfl, by decide, by decide, rfl⟩

/-- Validation of a batch succeeds exactly when every member validates. -/
theorem validate_operations_ok_iff (ops : List StorageOperation) :
    validate_operations ops = .ok () ↔ ∀ op ∈ ops, validate_operation op = .ok () := by
  induction ops with
  | nil => simp [validate_operations]
  | cons op rest ih =>
    constructor
    · intro h
      cases hv : validate_operation op with
      | ok u =>
        cases u
        simp only [validate_operations, hv] at h
        intro op' h'
        rcases List.mem_cons.mp h' with he | hm
        · rw [he, hv]
        · exact ih.mp h op' hm
      | error e =>
        simp only [validate_operations, hv] at h
        cases h
    · intro h
      have h1 := h op (List.mem_cons_self _ _)
      simp only [validate_operations, h1]
      exact ih.mpr fun op' h' => h op' (List.mem_cons_of_mem _ h')

/-- C8 (amended): the WAL validation rules as the code implements them —
`Create` requires a non-empty id and name; `UpdateStatus`, `UpdateState`
and `Delete` require a non-empty id; `Batch` validates its children
recursively; `AddMount`, `RemoveMount` and the remaining update operations
fall into the wildcard arm and are always accepted.  The integrity report
records the entry count, the failing entries with their indices (soundly
and completely), `is_valid` holds exactly when there are no errors (equally,
when every entry validates), and `success_rate` is `1 - errors/total`, `1`
when the WAL is empty. -/
theorem wal_integrity_spec :
    (∀ meta, validate_operation (.create meta) = .ok () ↔
      (meta.id ≠ "" ∧ meta.name ≠ "")) ∧
    (∀ id status, validate_operation (.updateStatus id status) = .ok () ↔ id ≠ "") ∧
    (∀ id state, validate_operation (.updateState id state) = .ok () ↔ id ≠ "") ∧
    (∀ id, validate_operation (.delete id) = .ok () ↔ id ≠ "") ∧
    (∀ ops, validate_operation (.batch ops) = .ok () ↔
      ∀ op ∈ ops, validate_operation op = .ok ()) ∧
    (∀ id env, validate_operation (.updateEnvironment id env) = .ok ()) ∧
    (∀ id labels, validate_operation (.updateLabels id labels) = .ok ()) ∧
    (∀ id resources, validate_operation (.updateResources id resources) = .ok ()) ∧
    (∀ id network, validate_operation (.attachNetwork id network) = .ok ()) ∧
    (∀ id, validate_operation (.detachNetwork id) = .ok ()) ∧
    (∀ id mount, validate_operation (.addMount id mount) = .ok ()) ∧
    (∀ id destination, validate_operation (.removeMount id destination) = .ok ()) ∧
    (∀ wal, (verify_integrity wal).total_operations = wal.length) ∧
    (∀ wal, (verify_integrity wal).is_valid = true ↔ (verify_integrity wal).errors = []) ∧
    (∀ wal, (verify_integrity wal).is_valid = true ↔
      ∀ op ∈ wal, validate_operation op = .ok ()) ∧
    (∀ wal e, e ∈ (verify_integrity wal).errors →
      wal.get? e.index = some e.operation ∧
      validate_operation e.operation = .error e.error) ∧
    (∀ wal i op e, wal.get? i = some op → validate_operation op = .error e →
      (⟨i, op, e⟩ : WalError) ∈ (verify_integrity wal).errors) ∧
    (∀ wal, (verify_integrity wal).total_operations ≠ 0 →
      (verify_integrity wal).success_rate =
        1 - ((verify_integrity wal).error_count : Rat) /
          ((verify_integrity wal).total_operations : Rat)) ∧
    (∀ wal, (verify_integrity wal).total_operations = 0 →
      (verify_integrity wal).success_rate = 1) := by
  refine ⟨?_, ?_, ?_, ?_, ?_, ?_, ?_, ?_, ?_, ?_, ?_, ?_, ?_, ?_, ?_, ?_, ?_, ?_, ?_⟩
  · intro meta
    by_cases h1 : meta.id = "" <;> by_cases h2 : meta.name = "" <;>
      simp [validate_operation, h1, h2]
  · intro id status
    by_cases h : id = "" <;> simp [validate_operation, h]
  · intro id state
    by_cases h : id = "" <;> simp [validate_operation, h]
  · intro id
    by_cases h : id = "" <;> simp [validate_operation, h]
  · intro ops
    simp only [validate_operation]
    exact validate_operations_ok_iff ops
  · intro id env
    simp [validate_operation]
  · intro id labels
    simp [validate_operation]
  · intro id resources
    simp [validate_operation]
  · intro id network
    simp [validate_operation]
  · intro id
    simp [validate_operation]
  · intro id mount
    simp [validate_operation]
  · intro id destination
    simp [validate_operation]
  · intro wal
    rfl
  · intro wal
    rw [IntegrityReport.is_valid, List.isEmpty_iff]
  · intro wal
    rw [IntegrityReport.is_valid, List.isEmpty_iff]
    show (List.filterMap _ wal.enum) = [] ↔ _
    rw [List.filterMap_eq_nil_iff]
    constructor
    · intro h op hop
      obtain ⟨i, hi⟩ := List.mem_iff_get?.mp hop
      have hnone := h (i, op) (List.mk_mem_enum_iff_get?.mpr hi)
      cases hv : validate_operation op with
      | ok u => cases u; rfl
      | error e =>
        rw [hv] at hnone
        cases hnone
    · intro h p hp
      obtain ⟨i, op⟩ := p
      have hop : op ∈ wal :=
        List.mem_iff_get?.mpr ⟨i, List.mk_mem_enum_iff_get?.mp hp⟩
      have := h op hop
      simp only [this]
  · intro wal e he
    obtain ⟨p, hp, hf⟩ := List.mem_filterMap.mp he
    obtain ⟨i, op⟩ := p
    cases hv : validate_operation op with
    | ok u =>
      rw [hv] at hf
      cases hf
    | error msg =>
      rw [hv] at hf
      have he' : (⟨i, op, msg⟩ : WalError) = e := by
        injection hf
      rw [← he']
      exact ⟨List.mk_mem_enum_iff_get?.mp hp, hv⟩
  · intro wal i op e hget hv
    apply List.mem_filterMap.mpr
    refine ⟨(i, op), List.mk_mem_enum_iff_get?.mpr hget, ?_⟩
    simp only [hv]
  · intro wal h
    rw [IntegrityReport.success_rate, if_neg h]
    rfl
  · intro wal h
    rw [IntegrityReport.success_rate, if_pos h]

/-- Closed witness for `wal_integrity_spec`: a create with empty id is
reported at index 0 of a two-entry WAL. -/
theorem wal_integrity_spec_witness :
    validate_operation (.delete "abc") = .ok () ∧
    (⟨0, .delete "", "Container ID cannot be empty"⟩ : WalError) ∈
      (verify_integrity [.delete "", .delete "abc"]).errors :=
  ⟨(wal_integrity_spec.2.2.2.1 "abc").mpr (by decide),
   wal_integrity_spec.2.2.2.2.2.2.2.2.2.2.2.2.2.2.2.2.1
     [.delete "", .delete "abc"] 0 (.delete "") "Container ID cannot be empty" rfl rfl⟩

/-- C8 counterexample: an `AddMount` with an empty container id passes
validation (it falls into the wildcard arm of `validate_operation`), so a
WAL holding only that entry is reported fully valid — the claim that
`AddMount` and `RemoveMount` require a non-empty id does not hold. -/
theorem validate_add_mount_empty_id :
    validate_operation (.addMount "" ⟨"/h", "/c", .bind, false⟩) = .ok () ∧
    (verify_integrity [.addMount "" ⟨"/h", "/c", .bind, false⟩]).is_valid = true ∧
    (verify_integrity [.addMount "" ⟨"/h", "/c", .bind, false⟩]).errors = [] ∧
    (verify_integrity [.removeMount "" "/c"]).is_valid = true :=
  ⟨rfl, rfl, rfl, rfl⟩

/-! ### Log paths and volume mounting -/

/-- Splitting a separator-free string yields one fragment. -/
theorem rustSplit_no_sep {sep : Char} {s : List Char} (h : sep ∉ s) :
    rustSplit sep s = [s] := by
  induction s with
  | nil => rfl
  | cons c rest ih =>
    have hc : c ≠ sep := fun he => h (he ▸ List.mem_cons_self _ _)
    have hr : sep ∉ rest := fun hm => h (List.mem_cons_of_mem _ hm)
    simp [rustSplit, hc, ih hr]

/-- Splitting `left:right` with separator-free halves yields the two
halves. -/
theorem rustSplit_two {sep : Char} {a b : List Char} (ha : sep ∉ a)
    (hb : sep ∉ b) : rustSplit sep (a ++ sep :: b) = [a, b] := by
  induction a with
  | nil => simp [rustSplit, rustSplit_no_sep hb]
  | cons c rest ih =>
    have hc : c ≠ sep := fun he => ha (he ▸ List.mem_cons_self _ _)
    have hr : sep ∉ rest := fun hm => ha (List.mem_cons_of_mem _ hm)
    simp [rustSplit, hc, ih hr]

/-- C3: the file the `Logs` verb reads and the file the detached run's
log-writer fills are never the same — `show_logs` reads
`(root)/stdout.log` while `do_run` captures the container's output into
`(root)/log.log`, so `Logs` can never return the captured output. -/
theorem show_logs_reads_wrong_file :
    show_logs_path (str "c") (str "42") = str "/tmp/rtain/c-42/stdout.log" ∧
    do_run_log_path (str "c") (str "42") = str "/tmp/rtain/c-42/log.log" ∧
    (∀ name id : List Char, show_logs_path name id ≠ do_run_log_path name id) := by
  refine ⟨rfl, rfl, ?_⟩
  intro name id h
  rw [show_logs_path, do_run_log_path] at h
  have := List.append_cancel_left h
  cases this

/-- C10: for every volume specification `H:C` with non-empty
separator-free halves, when the container half does not begin with `/` the
workspace setup panics in the `unwrap` after `strip_prefix` instead of
reporting `InvalidVolume`; only container paths starting with `/` reach the
bind-mount. -/
theorem new_workspace_volume_spec :
    ∀ (hs : List Char) (a : Char) (t mnt : List Char),
      hs ≠ [] → ':' ∉ hs → ':' ∉ a :: t →
      (a ≠ '/' →
        new_workspace_volume mnt (some (hs ++ ':' :: a :: t)) = .panicked) ∧
      (a = '/' →
        new_workspace_volume mnt (some (hs ++ ':' :: a :: t)) =
          .ok (some (mnt ++ '/' :: t))) := by
  intro hs a t mnt hne hh hc
  have hsplit := rustSplit_two hh hc
  constructor
  · intro ha
    have hstrip : strip_slash (a :: t) = none := by
      simp [strip_slash, ha]
    simp [new_workspace_volume, hsplit, hne, mount_volume_path, hstrip]
  · intro ha
    subst ha
    simp [new_workspace_volume, hsplit, hne, mount_volume_path, strip_slash]

/-- Closed witness for `new_workspace_volume_spec`: the specification
`host:data` (no leading slash) panics, `host:/data` mounts at
`(mnt)/data`. -/
theorem new_workspace_volume_spec_witness :
    new_workspace_volume (str "/m") (some (str "host" ++ ':' :: 'd' :: str "ata")) =
      .panicked ∧
    new_workspace_volume (str "/m") (some (str "host" ++ ':' :: '/' :: str "data")) =
      .ok (some (str "/m" ++ '/' :: str "data")) :=
  ⟨(new_workspace_volume_spec (str "host") 'd' (str "ata") (str "/m")
      (by decide) (by decide) (by decide)).1 (by decide),
   (new_workspace_volume_spec (str "host") '/' (str "data") (str "/m")
      (by decide) (by decide) (by decide)).2 rfl⟩

/-! ### Bitmask and bitmap lemmas for the IPAM -/

theorem testBit_div_pow (x n m : Nat) : (x / 2 ^ n).testBit m = x.testBit (m + n) := by
  induction n generalizing x m with
  | zero => simp
  | succ k ih =>
    have : x / 2 ^ (k + 1) = x / 2 / 2 ^ k := by
      rw [Nat.div_div_eq_div_mul, pow_succ, mul_comm 2 (2 ^ k), ← Nat.div_div_eq_div_mul,
        Nat.div_div_eq_div_mul]
    rw [this, ih, Nat.testBit_div_two, Nat.add_assoc]

theorem land_mask_eq (x s : Nat) (hs : s ≤ 32) (hx : x < 2 ^ 32) :
    (x &&& (2 ^ 32 - 2 ^ s)) = x / 2 ^ s * 2 ^ s := by
  apply Nat.eq_of_testBit_eq
  intro i
  rw [Nat.testBit_land]
  have hmask : (2 ^ 32 - 2 ^ s) = 2 ^ s * (2 ^ (32 - s) - 1) := by
    rw [Nat.mul_sub, mul_one, ← pow_add]
    congr 2
    omega
  rw [hmask, Nat.testBit_mul_pow_two, mul_comm (x / 2 ^ s), Nat.testBit_mul_pow_two,
    testBit_div_pow]
  by_cases hi : s ≤ i
  · have hise : i - s + s = i := by omega
    rw [hise, Nat.testBit_two_pow_sub_one]
    by_cases hi32 : i < 32
    · have h32 : i - s < 32 - s := by omega
      simp [hi, h32, Bool.and_comm]
    · have h1 : ¬ (i - s < 32 - s) := by omega
      have h2 : x.testBit i = false :=
        Nat.testBit_eq_false_of_lt
          (lt_of_lt_of_le hx (Nat.pow_le_pow_right (by norm_num) (by omega)))
      simp [h1, h2]
  · simp [hi]

theorem land_mask_self {x s : Nat} (hs : s ≤ 32) (hx : x < 2 ^ 32)
    (hmod : x % 2 ^ s = 0) : (x &&& (2 ^ 32 - 2 ^ s)) = x := by
  rw [land_mask_eq x s hs hx]
  exact Nat.div_mul_cancel (Nat.dvd_of_mod_eq_zero hmod)

theorem land_mask_add {x k s : Nat} (hs : s ≤ 32) (hmod : x % 2 ^ s = 0)
    (hk : k < 2 ^ s) (hxk : x + k < 2 ^ 32) :
    ((x + k) &&& (2 ^ 32 - 2 ^ s)) = x := by
  rw [land_mask_eq _ s hs hxk]
  obtain ⟨q, hq⟩ := Nat.dvd_of_mod_eq_zero hmod
  subst hq
  have h1 : (2 ^ s * q + k) / 2 ^ s = q := by
    rw [add_comm, Nat.add_mul_div_left _ _ (Nat.pos_pow_of_pos s (by norm_num)),
      Nat.div_eq_of_lt hk, Nat.zero_add]
  rw [h1, mul_comm]

/-- A number that is a multiple of `2^s` and below `2^32` is at most
`2^32 - 2^s`. -/
theorem le_sub_of_mod_eq_zero {x s : Nat} (hs : s ≤ 32) (hx : x < 2 ^ 32)
    (hmod : x % 2 ^ s = 0) : x ≤ 2 ^ 32 - 2 ^ s := by
  obtain ⟨q, hq⟩ := Nat.dvd_of_mod_eq_zero hmod
  subst hq
  have hpow : 2 ^ s * 2 ^ (32 - s) = 2 ^ 32 := by
    rw [← pow_add]
    congr 1
    omega
  have hqlt : q < 2 ^ (32 - s) := by
    by_contra hge
    push_neg at hge
    exact absurd (le_trans (hpow ▸ Nat.mul_le_mul_left (2 ^ s) hge) le_rfl) (not_le.mpr hx)
  calc 2 ^ s * q ≤ 2 ^ s * (2 ^ (32 - s) - 1) :=
        Nat.mul_le_mul_left _ (by omega)
    _ = 2 ^ 32 - 2 ^ s := by rw [Nat.mul_sub, mul_one, hpow]

theorem first_zero_spec :
    ∀ (bm : List Bool) (pos : Nat), first_zero bm = some pos →
      pos < bm.length ∧ bm.getD pos false = false ∧
      ∀ j, j < pos → bm.getD j false = true := by
  intro bm
  induction bm with
  | nil =>
    intro pos h
    cases h
  | cons b rest ih =>
    intro pos h
    cases b with
    | false =>
      have hp : pos = 0 := by
        rw [first_zero, if_neg (by exact Bool.false_ne_true)] at h
        injection h with h'
        exact h'.symm
      subst hp
      exact ⟨by simp, rfl, fun j hj => absurd hj (by omega)⟩
    | true =>
      rw [first_zero, if_pos rfl] at h
      cases hr : first_zero rest with
      | none =>
        rw [hr] at h
        cases h
      | some q =>
        rw [hr] at h
        simp only [Option.map_some'] at h
        obtain ⟨h1, h2, h3⟩ := ih q hr
        have hp : pos = q + 1 := by
          injection h with h'
          exact h'.symm
        subst hp
        refine ⟨by simpa using Nat.succ_lt_succ h1, by simpa using h2, ?_⟩
        intro j hj
        cases j with
        | zero => rfl
        | succ j' => simpa using h3 j' (by omega)

theorem set_self_of_getD :
    ∀ (l : List Bool) (n : Nat) (b : Bool), l.getD n b = b → l.set n b = l := by
  intro l
  induction l with
  | nil => intro n b _; rfl
  | cons x xs ih =>
    intro n b h
    cases n with
    | zero =>
      have hx : x = b := by simpa using h
      simp [List.set, hx]
    | succ k =>
      simp only [List.set]
      rw [ih k b (by simpa using h)]

theorem getD_set_self {l : List Bool} {n : Nat} {a d : Bool} (h : n < l.length) :
    (l.set n a).getD n d = a := by
  simp [List.getD, List.getElem?_set_self, h]

/-! ### More association-list lemmas (insert) -/

theorem map_eq_self_of {α : Type} {f : α → α} {l : List α}
    (h : ∀ a ∈ l, f a = a) : l.map f = l := by
  induction l with
  | nil => rfl
  | cons x xs ih => simp [h x (List.mem_cons_self _ _), ih fun a ha => h a (List.mem_cons_of_mem _ ha)]

theorem hasKey_mapInsert_self {α : Type} (k : String) (v : α) (m : List (String × α)) :
    hasKey k (mapInsert k v m) = true := by
  by_cases h : hasKey k m
  · rw [mapInsert, if_pos h]
    obtain ⟨p, hp, hpk⟩ := List.any_eq_true.mp h
    simp only [decide_eq_true_eq] at hpk
    apply List.any_eq_true.mpr
    have hmem := List.mem_map_of_mem (fun q : String × α => if q.1 = k then (k, v) else q) hp
    simp only [hpk, if_true, ite_true] at hmem
    exact ⟨(k, v), hmem, by simp⟩
  · rw [mapInsert, if_neg h]
    simp [hasKey]

theorem mapInsert_idem {α : Type} (k : String) (v v' : α) (m : List (String × α)) :
    mapInsert k v (mapInsert k v' m) = mapInsert k v m := by
  by_cases h : hasKey k m
  · have h2 : hasKey k (mapInsert k v' m) = true := hasKey_mapInsert_self k v' m
    rw [mapInsert, if_pos h2, mapInsert, if_pos h, mapInsert, if_pos h, List.map_map]
    apply List.map_congr_left
    intro p _
    by_cases hp : p.1 = k <;> simp [hp]
  · have hf : hasKey k m = false := by simpa using h
    have h2 : hasKey k ((k, v') :: m) = true := by simp [hasKey]
    rw [show mapInsert k v' m = (k, v') :: m from mapInsert_fresh v' hf,
      mapInsert, if_pos h2, mapInsert, if_neg h]
    simp only [List.map_cons, if_pos rfl]
    congr 1
    apply map_eq_self_of
    intro p hp
    have hpk : ¬ p.1 = k := by
      intro he
      apply not_mem_of_hasKey_false (show hasKey k m = false by simpa using h) p.2
      have : p = (k, p.2) := by
        obtain ⟨p1, p2⟩ := p
        simp only at he
        rw [he]
      rw [← this]
      exact hp
    simp [hpk]

theorem mapInsert_mem_self {α : Type} {k : String} {v : α} {m : List (String × α)}
    (hnd : (m.map Prod.fst).Nodup) (hm : (k, v) ∈ m) : mapInsert k v m = m := by
  have h : hasKey k m = true := List.any_eq_true.mpr ⟨(k, v), hm, by simp⟩
  rw [mapInsert, if_pos h]
  apply map_eq_self_of
  intro p hp
  by_cases hpk : p.1 = k
  · have hpe : p = (k, p.2) := by
      obtain ⟨p1, p2⟩ := p
      simp only at hpk
      rw [hpk]
    have hveq : p.2 = v := keys_inj hnd (hpe ▸ hp) hm
    rw [hpe, hveq]
    simp
  · simp [hpk]

theorem mapGet_mapInsert_self {α : Type} (k : String) (v : α) (m : List (String × α)) :
    mapGet k (mapInsert k v m) = some v := by
  induction m with
  | nil => simp [mapGet, mapInsert, hasKey, List.find?]
  | cons p rest ih =>
    by_cases hp : p.1 = k
    · have hh : hasKey k (p :: rest) = true := by
        simp [hasKey, List.any_cons, hp]
      rw [mapInsert, if_pos hh]
      simp only [List.map_cons, if_pos hp]
      simp [mapGet, List.find?_cons]
    · cases hr : hasKey k rest with
      | true =>
        have hh : hasKey k (p :: rest) = true := by
          simp [hasKey, List.any_cons] at hr ⊢
          exact Or.inr hr
        rw [mapInsert, if_pos hh]
        simp only [List.map_cons, if_neg hp]
        have hskip : mapGet k (p :: (rest.map fun q => if q.1 = k then (k, v) else q)) =
            mapGet k (rest.map fun q => if q.1 = k then (k, v) else q) := by
          simp [mapGet, List.find?_cons, hp]
        rw [mapInsert, if_pos hr] at ih
        rw [hskip]
        exact ih
      | false =>
        have hh : hasKey k (p :: rest) = false := by
          simp [hasKey, List.any_cons] at hr ⊢
          exact ⟨hp, hr⟩
        rw [mapInsert, if_neg (by rw [hh]; exact Bool.false_ne_true)]
        simp [mapGet, List.find?_cons]

/-! ### IPAM claim theorems -/

theorem total_ips_some {p : Nat} (h1 : 1 ≤ p) (h2 : p ≤ 31) :
    total_ips_u32 p = some (2 ^ (32 - p) - 2) := by
  have ha : 2 ^ (32 - p) ≤ 2 ^ 31 := Nat.pow_le_pow_right (by norm_num) (by omega)
  have hb : 2 ^ 1 ≤ 2 ^ (32 - p) := Nat.pow_le_pow_right (by norm_num) (by omega)
  rw [total_ips_u32, if_neg (by omega), if_neg (by omega)]

theorem mask_some {p : Nat} (h1 : 1 ≤ p) :
    rust_mask_u32 p = some (2 ^ 32 - 2 ^ (32 - p)) := by
  rw [rust_mask_u32, if_neg (by omega)]

/-- C7 (amended): `add_subnet` on a CIDR that parses with prefix
1 ≤ p ≤ 31 and is not yet present inserts an all-zero bitmap of length
`2^(32-p) - 2`; a duplicate CIDR fails with the duplicate-subnet error and
an unparseable CIDR propagates its parse error.  (For p = 0 and p = 32 the
size arithmetic overflows and panics, see the counterexample.) -/
theorem add_subnet_spec :
    (∀ (pam : IPAM) (cidr : String) (ip p : Nat),
      hasKey cidr pam.subnets = false →
      parse_cidr cidr.data = .ok (ip, p) → 1 ≤ p → p ≤ 31 →
      add_subnet pam cidr =
        .ok ⟨mapInsert cidr (List.replicate (2 ^ (32 - p) - 2) false) pam.subnets⟩) ∧
    (∀ (pam : IPAM) (cidr : String), hasKey cidr pam.subnets = true →
      add_subnet pam cidr = .err "Subnet already exists") ∧
    (∀ (pam : IPAM) (cidr : String) (e : String), hasKey cidr pam.subnets = false →
      parse_cidr cidr.data = .err e → add_subnet pam cidr = .err e) := by
  refine ⟨?_, ?_, ?_⟩
  · intro pam cidr ip p hk hp h1 h2
    simp [add_subnet, hk, hp, total_ips_some h1 h2]
  · intro pam cidr hk
    simp [add_subnet, hk]
  · intro pam cidr e hk hp
    simp [add_subnet, hk, hp]

set_option maxRecDepth 4000 in
/-- Closed witness for `add_subnet_spec`: a fresh /24 subnet gets a
254-bit all-zero bitmap. -/
theorem add_subnet_spec_witness :
    add_subnet IPAM.empty "10.0.0.0/24" =
      .ok ⟨[("10.0.0.0/24", List.replicate 254 false)]⟩ := by
  have h := add_subnet_spec.1 IPAM.empty "10.0.0.0/24" 167772160 24
    rfl (by decide) (by decide) (by decide)
  exact h

/-- C7 counterexample: the well-formed CIDRs `10.0.0.0/32` (prefix 32, so
`2u32.pow(0) - 2` underflows) and `0.0.0.0/0` (prefix 0, so `2u32.pow(32)`
overflows) make `add_subnet` panic under debug-profile arithmetic instead
of inserting a bitmap of length `2^(32-p) - 2` (which would be negative for
p = 32), refuting the claim for the full range 0 ≤ p ≤ 32. -/
theorem add_subnet_boundary_panics :
    add_subnet IPAM.empty "10.0.0.0/32" = .panicked ∧
    add_subnet IPAM.empty "0.0.0.0/0" = .panicked :=
  ⟨by decide, by decide⟩

/-- C5: `allocate_ip` on a present subnet finds the lowest clear bit of
its bitmap (the returned index is in range, clear, and everything below it
is set), sets exactly that bit, and returns `(subnet & mask) + (index + 1)`
— the network base plus index plus one; with no clear bit it fails
exhausted, and an unknown subnet is rejected.  On a fresh /30 exactly two
allocations succeed (`.1` and `.2`) and the third is exhausted. -/
theorem allocate_ip_spec :
    (∀ (pam : IPAM) (cidr : String) (bm : List Bool),
      GoodIpam pam → mapGet cidr pam.subnets = some bm →
      (∀ pos, first_zero bm = some pos →
        pos < bm.length ∧ bm.getD pos false = false ∧
        (∀ j, j < pos → bm.getD j false = true) ∧
        ∃ subnet p, parse_cidr cidr.data = .ok (subnet, p) ∧
          allocate_ip pam cidr =
            (.ok (((subnet &&& (2 ^ 32 - 2 ^ (32 - p))) + (pos + 1)) % 2 ^ 32),
             ⟨mapInsert cidr (bm.set pos true) pam.subnets⟩)) ∧
      (first_zero bm = none →
        allocate_ip pam cidr = (.err "No available IP", pam))) ∧
    (∀ (pam : IPAM) (cidr : String), mapGet cidr pam.subnets = none →
      allocate_ip pam cidr = (.err "Subnet not found", pam)) ∧
    (add_subnet IPAM.empty "192.168.1.0/30" =
       .ok ⟨[("192.168.1.0/30", [false, false])]⟩ ∧
     allocate_ip ⟨[("192.168.1.0/30", [false, false])]⟩ "192.168.1.0/30" =
       (.ok 3232235777, ⟨[("192.168.1.0/30", [true, false])]⟩) ∧
     allocate_ip ⟨[("192.168.1.0/30", [true, false])]⟩ "192.168.1.0/30" =
       (.ok 3232235778, ⟨[("192.168.1.0/30", [true, true])]⟩) ∧
     allocate_ip ⟨[("192.168.1.0/30", [true, true])]⟩ "192.168.1.0/30" =
       (.err "No available IP", ⟨[("192.168.1.0/30", [true, true])]⟩)) := by
  refine ⟨?_, ?_, by decide, by decide, by decide, by decide⟩
  · intro pam cidr bm hg hget
    obtain ⟨hnd, hgood⟩ := hg
    obtain ⟨subnet, p, hparse, hp1, hp31, hlt, hlen⟩ :=
      hgood cidr bm (mem_of_mapGet_some hget)
    constructor
    · intro pos hfz
      obtain ⟨hposlt, hbit, hmin⟩ := first_zero_spec bm pos hfz
      refine ⟨hposlt, hbit, hmin, subnet, p, hparse, ?_⟩
      simp [allocate_ip, hget, hfz, calculate_ip, hparse, mask_some hp1]
    · intro hfz
      simp [allocate_ip, hget, hfz]
  · intro pam cidr h
    simp [allocate_ip, h]

/-- Closed witness for `allocate_ip_spec`: the exhausted branch on a full
/30 bitmap, with the invariant hypothesis discharged by evaluation. -/
theorem allocate_ip_spec_witness :
    allocate_ip ⟨[("192.168.1.0/30", [true, true])]⟩ "192.168.1.0/30" =
      (.err "No available IP", ⟨[("192.168.1.0/30", [true, true])]⟩) := by
  have hg : GoodIpam ⟨[("192.168.1.0/30", [true, true])]⟩ := by
    refine ⟨by decide, ?_⟩
    intro cidr bm hm
    rw [List.mem_singleton] at hm
    have hc : cidr = "192.168.1.0/30" := congrArg Prod.fst hm
    have hb : bm = [true, true] := congrArg Prod.snd hm
    subst hc
    subst hb
    exact ⟨3232235776, 30, by decide, by decide, by decide, by decide, by decide⟩
  exact (allocate_ip_spec.1 _ "192.168.1.0/30" [true, true] hg (by decide)).2 (by decide)

/-- On a canonical subnet (host bits of the stored address all zero),
`ip_to_index` of `subnet + k` is `k - 1`. -/
theorem ip_to_index_canonical {subnet p k : Nat} (hp1 : 1 ≤ p) (hp31 : p ≤ 31)
    (hlt : subnet < 2 ^ 32) (hcanon : subnet % 2 ^ (32 - p) = 0)
    (hk1 : 1 ≤ k) (hk : k < 2 ^ (32 - p)) :
    ip_to_index subnet (subnet + k) p = .ok (k - 1) := by
  have hs32 : 32 - p ≤ 32 := by omega
  have hle : subnet ≤ 2 ^ 32 - 2 ^ (32 - p) := le_sub_of_mod_eq_zero hs32 hlt hcanon
  have htop : 2 ^ (32 - p) ≤ 2 ^ 31 := Nat.pow_le_pow_right (by norm_num) (by omega)
  have hxk : subnet + k < 2 ^ 32 := by omega
  have hms : (subnet &&& (2 ^ 32 - 2 ^ (32 - p))) = subnet :=
    land_mask_self hs32 hlt hcanon
  have hma : ((subnet + k) &&& (2 ^ 32 - 2 ^ (32 - p))) = subnet :=
    land_mask_add hs32 hcanon hk hxk
  simp only [ip_to_index, mask_some hp1, hms, hma]
  rw [if_neg (by exact fun hcon => hcon rfl)]
  simp only [checkedSubU32]
  rw [if_pos (Nat.le_add_right subnet k)]
  have h1 : subnet + k - subnet = k := by omega
  rw [h1]
  simp [hk1]

/-- C6 (amended): on a subnet stored under its network base (host bits
zero), `allocate_ip` followed by `release_ip` of the returned address
restores the IPAM bit-for-bit, and releasing an in-range address whose bit
is clear fails with the not-allocated error and leaves the IPAM unchanged.
(Ranged outside a canonical base the index arithmetic underflows, see the
counterexample.) -/
theorem ipam_allocate_release_conservation :
    (∀ (pam : IPAM) (cidr : String) (bm : List Bool) (subnet p pos : Nat),
      GoodIpam pam →
      mapGet cidr pam.subnets = some bm →
      parse_cidr cidr.data = .ok (subnet, p) →
      subnet % 2 ^ (32 - p) = 0 →
      first_zero bm = some pos →
      ∀ (addr : Nat) (pam1 : IPAM), allocate_ip pam cidr = (.ok addr, pam1) →
        release_ip pam1 cidr addr = (.ok (), pam)) ∧
    (∀ (pam : IPAM) (cidr : String) (bm : List Bool) (subnet p pos : Nat),
      GoodIpam pam →
      mapGet cidr pam.subnets = some bm →
      parse_cidr cidr.data = .ok (subnet, p) →
      subnet % 2 ^ (32 - p) = 0 →
      pos < bm.length → bm.getD pos false = false →
      release_ip pam cidr (subnet + (pos + 1)) = (.err "IP not allocated", pam)) := by
  constructor
  · intro pam cidr bm subnet p pos hg hget hparse hcanon hfz addr pam1 halloc
    obtain ⟨hnd, hgood⟩ := hg
    obtain ⟨ip', p', hparse', hp1, hp31, hlt, hlen⟩ :=
      hgood cidr bm (mem_of_mapGet_some hget)
    rw [hparse] at hparse'
    have hips : subnet = ip' := by
      injection hparse' with hpair
      exact congrArg Prod.fst hpair
    have hps : p = p' := by
      injection hparse' with hpair
      exact congrArg Prod.snd hpair
    subst hips
    subst hps
    obtain ⟨hposlt, hbit, hmin⟩ := first_zero_spec bm pos hfz
    have hs32 : 32 - p ≤ 32 := by omega
    have hb2 : 2 ^ 1 ≤ 2 ^ (32 - p) := Nat.pow_le_pow_right (by norm_num) (by omega)
    have htop : 2 ^ (32 - p) ≤ 2 ^ 31 := Nat.pow_le_pow_right (by norm_num) (by omega)
    have hk : pos + 1 < 2 ^ (32 - p) := by omega
    have hle : subnet ≤ 2 ^ 32 - 2 ^ (32 - p) := le_sub_of_mod_eq_zero hs32 hlt hcanon
    have hlt2 : subnet + (pos + 1) < 2 ^ 32 := by omega
    have hcalc : allocate_ip pam cidr =
        (.ok (subnet + (pos + 1)), ⟨mapInsert cidr (bm.set pos true) pam.subnets⟩) := by
      simp only [allocate_ip, hget, hfz, calculate_ip, hparse, mask_some hp1]
      rw [land_mask_self hs32 hlt hcanon, Nat.mod_eq_of_lt hlt2]
    rw [hcalc] at halloc
    injection halloc with h1 h2
    have haddr : addr = subnet + (pos + 1) := by
      injection h1 with h1'
      exact h1'.symm
    subst haddr
    subst h2
    simp only [release_ip, hparse,
      ip_to_index_canonical hp1 hp31 hlt hcanon (Nat.le_add_left 1 pos) hk,
      Nat.add_sub_cancel, mapGet_mapInsert_self]
    have hlen2 : (bm.set pos true).length = bm.length := List.length_set bm pos true
    rw [if_neg (by rw [hlen2]; omega)]
    rw [if_neg (by rw [getD_set_self hposlt]; decide)]
    rw [List.set_set, set_self_of_getD bm pos false hbit, mapInsert_idem,
      mapInsert_mem_self hnd (mem_of_mapGet_some hget)]
  · intro pam cidr bm subnet p pos hg hget hparse hcanon hposlt hbit
    obtain ⟨hnd, hgood⟩ := hg
    obtain ⟨ip', p', hparse', hp1, hp31, hlt, hlen⟩ :=
      hgood cidr bm (mem_of_mapGet_some hget)
    rw [hparse] at hparse'
    have hips : subnet = ip' := by
      injection hparse' with hpair
      exact congrArg Prod.fst hpair
    have hps : p = p' := by
      injection hparse' with hpair
      exact congrArg Prod.snd hpair
    subst hips
    subst hps
    have hb2 : 2 ^ 1 ≤ 2 ^ (32 - p) := Nat.pow_le_pow_right (by norm_num) (by omega)
    have hk : pos + 1 < 2 ^ (32 - p) := by omega
    simp only [release_ip, hparse,
      ip_to_index_canonical hp1 hp31 hlt hcanon (Nat.le_add_left 1 pos) hk,
      Nat.add_sub_cancel, hget]
    rw [if_neg (by omega), if_pos hbit]

set_option maxRecDepth 8000 in
/-- C6 counterexample: the subnet stored as `10.0.0.5/24` (a valid
`add_subnet` input whose address is not the network base) breaks the
conservation claim — `allocate_ip` hands out `10.0.0.1` (computed from the
masked base), but `release_ip` of that address computes
`ip - subnet_ip - 1 = 10.0.0.1 - 10.0.0.5 - 1`, which underflows u32 and
panics, leaving the allocated bit set instead of restoring the bitmap. -/
theorem ipam_noncanonical_roundtrip :
    add_subnet IPAM.empty "10.0.0.5/24" =
      .ok ⟨[("10.0.0.5/24", List.replicate 254 false)]⟩ ∧
    allocate_ip ⟨[("10.0.0.5/24", List.replicate 254 false)]⟩ "10.0.0.5/24" =
      (.ok 167772161, ⟨[("10.0.0.5/24", (List.replicate 254 false).set 0 true)]⟩) ∧
    release_ip ⟨[("10.0.0.5/24", (List.replicate 254 false).set 0 true)]⟩
        "10.0.0.5/24" 167772161 =
      (.panicked, ⟨[("10.0.0.5/24", (List.replicate 254 false).set 0 true)]⟩) ∧
    (List.replicate 254 false).set 0 true ≠ List.replicate 254 false :=
  ⟨by decide, by decide, by decide, by decide⟩

/-- Closed witness for `ipam_allocate_release_conservation`: on the
canonical `/30`, releasing the still-clear address `.1` fails with the
not-allocated error and leaves the bitmap untouched. -/
theorem ipam_conservation_witness :
    release_ip ⟨[("192.168.1.0/30", [false, false])]⟩ "192.168.1.0/30"
        (3232235776 + (0 + 1)) =
      (.err "IP not allocated", ⟨[("192.168.1.0/30", [false, false])]⟩) := by
  have hg : GoodIpam ⟨[("192.168.1.0/30", [false, false])]⟩ := by
    refine ⟨by decide, ?_⟩
    intro cidr bm hm
    rw [List.mem_singleton] at hm
    have hc : cidr = "192.168.1.0/30" := congrArg Prod.fst hm
    have hb : bm = [false, false] := congrArg Prod.snd hm
    subst hc
    subst hb
    exact ⟨3232235776, 30, by decide, by decide, by decide, by decide, by decide⟩
  exact ipam_allocate_release_conservation.2 _ "192.168.1.0/30" [false, false]
    3232235776 30 0 hg (by decide) (by decide) (by decide) (by decide) (by decide)

/-! ### The `GoodIpam` invariant is established and preserved by the API -/

theorem parse_octet_le {s : List Char} {x : Nat} (h : parse_octet s = some x) :
    x ≤ 255 := by
  rw [parse_octet] at h
  split_ifs at h with h1 h2 h3 h4
  injection h with h'
  omega

theorem rustParseIpv4_lt {s : List Char} {v : Nat} (h : rustParseIpv4 s = some v) :
    v < 2 ^ 32 := by
  rw [rustParseIpv4] at h
  split at h
  · split at h
    · rename_i a b c d x y z w ha hb hc hd
      injection h with h'
      have hx := parse_octet_le ha
      have hy := parse_octet_le hb
      have hz := parse_octet_le hc
      have hw := parse_octet_le hd
      omega
    · cases h
  · cases h

theorem parse_cidr_ok_facts {s : List Char} {ip p : Nat}
    (h : parse_cidr s = .ok (ip, p)) : ip < 2 ^ 32 ∧ p ≤ 32 := by
  rw [parse_cidr] at h
  split at h
  · cases h
  · split at h
    · cases h
    · rename_i v hv
      split at h
      · cases h
      · rename_i len hlen
        split_ifs at h with h32
        injection h with h'
        have h1 : v = ip := congrArg Prod.fst h'
        have h2 : len = p := congrArg Prod.snd h'
        subst h1
        subst h2
        exact ⟨rustParseIpv4_lt hv, by omega⟩

theorem total_ips_inv {p t : Nat} (hp : p ≤ 32) (h : total_ips_u32 p = some t) :
    1 ≤ p ∧ p ≤ 31 ∧ t = 2 ^ (32 - p) - 2 := by
  rw [total_ips_u32] at h
  split_ifs at h with h1 h2
  injection h with h'
  have hple : p ≤ 31 := by
    by_contra hc
    have he : 32 - p = 0 := by omega
    rw [he] at h2
    exact h2 (by norm_num)
  have hpge : 1 ≤ p := by
    by_contra hc
    have he : 32 - p = 32 := by omega
    rw [he] at h1
    exact h1 (by norm_num)
  exact ⟨hpge, hple, h'.symm⟩

theorem mem_mapInsert {α : Type} {k : String} {v : α} {m : List (String × α)}
    {p : String × α} (h : p ∈ mapInsert k v m) : p = (k, v) ∨ p ∈ m := by
  rw [mapInsert] at h
  split_ifs at h with hk
  · obtain ⟨q, hq, hqe⟩ := List.mem_map.mp h
    by_cases hq1 : q.1 = k
    · left
      rw [← hqe]
      simp [hq1]
    · right
      rw [← hqe]
      simp only [hq1, if_false, ite_false]
      exact hq
  · rcases List.mem_cons.mp h with he | hm
    · left
      exact he
    · right
      exact hm

theorem keys_mapInsert_nodup {α : Type} {k : String} {v : α} {m : List (String × α)}
    (h : (m.map Prod.fst).Nodup) : ((mapInsert k v m).map Prod.fst).Nodup := by
  rw [mapInsert]
  split_ifs with hk
  · have hkeys : ((m.map fun p => if p.1 = k then (k, v) else p).map Prod.fst) =
        m.map Prod.fst := by
      rw [List.map_map]
      apply List.map_congr_left
      intro p _
      by_cases hp : p.1 = k <;> simp [hp]
    rw [hkeys]
    exact h
  · rw [List.map_cons]
    exact List.nodup_cons.mpr
      ⟨not_mem_keys_of_hasKey_false (by simpa using hk), h⟩

/-- `IPAM::empty` is good, and `add_subnet` preserves goodness: a freshly
inserted subnet always parses with a prefix between 1 and 31 and carries a
bitmap of exactly `2^(32-p) - 2` zero bits. -/
theorem add_subnet_preserves_good :
    GoodIpam IPAM.empty ∧
    ∀ (pam pam' : IPAM) (cidr : String), GoodIpam pam →
      add_subnet pam cidr = .ok pam' → GoodIpam pam' := by
  constructor
  · exact ⟨List.nodup_nil, fun cidr bm hm => absurd hm (List.not_mem_nil _)⟩
  · intro pam pam' cidr hg h
    rw [add_subnet] at h
    by_cases hk : hasKey cidr pam.subnets = true
    · rw [if_pos hk] at h
      cases h
    · rw [if_neg hk] at h
      cases hparse : parse_cidr cidr.data with
      | err e =>
        simp only [hparse] at h
        cases h
      | panicked =>
        simp only [hparse] at h
        cases h
      | ok sp =>
        obtain ⟨ip0, p0⟩ := sp
        simp only [hparse] at h
        cases htotal : total_ips_u32 p0 with
        | none =>
          simp only [htotal] at h
          cases h
        | some t =>
          simp only [htotal] at h
          injection h with h'
          subst h'
          obtain ⟨hiplt, hple⟩ := parse_cidr_ok_facts hparse
          obtain ⟨hp1, hp31, ht⟩ := total_ips_inv hple htotal
          refine ⟨keys_mapInsert_nodup hg.1, ?_⟩
          intro c bm hm
          rcases mem_mapInsert hm with he | hold
          · have hc : c = cidr := congrArg Prod.fst he
            have hb : bm = List.replicate t false := congrArg Prod.snd he
            subst hc
            subst hb
            exact ⟨ip0, p0, hparse, hp1, hp31, hiplt,
              by rw [List.length_replicate, ht]⟩
          · exact hg.2 c bm hold

/-- `allocate_ip` and `release_ip` preserve `GoodIpam` (they only flip one
bit of an existing bitmap, keeping its length). -/
theorem alloc_release_preserve_good :
    (∀ (pam : IPAM) (cidr : String), GoodIpam pam →
      GoodIpam (allocate_ip pam cidr).2) ∧
    (∀ (pam : IPAM) (cidr : String) (ip : Nat), GoodIpam pam →
      GoodIpam (release_ip pam cidr ip).2) := by
  have hins : ∀ (pam : IPAM) (cidr : String) (bitmap newbm : List Bool),
      GoodIpam pam → mapGet cidr pam.subnets = some bitmap →
      newbm.length = bitmap.length →
      GoodIpam ⟨mapInsert cidr newbm pam.subnets⟩ := by
    intro pam cidr bitmap newbm hg hget hlen
    refine ⟨keys_mapInsert_nodup hg.1, ?_⟩
    intro c bm hm
    rcases mem_mapInsert hm with he | hold
    · have hc : c = cidr := congrArg Prod.fst he
      have hb : bm = newbm := congrArg Prod.snd he
      obtain ⟨ip, p, hparse, hp1, hp31, hiplt, hblen⟩ :=
        hg.2 cidr bitmap (mem_of_mapGet_some hget)
      subst hc
      subst hb
      exact ⟨ip, p, hparse, hp1, hp31, hiplt, by rw [hlen, hblen]⟩
    · exact hg.2 c bm hold
  constructor
  · intro pam cidr hg
    rw [allocate_ip]
    split
    · exact hg
    · rename_i bitmap hget
      split
      · rename_i pos _
        exact hins pam cidr bitmap _ hg hget (List.length_set bitmap pos true)
      · exact hg
  · intro pam cidr ip hg
    rw [release_ip]
    split
    · exact hg
    · exact hg
    · rename_i sp _
      split
      · exact hg
      · exact hg
      · rename_i pos _
        split
        · exact hg
        · rename_i bitmap hget
          split_ifs with h1 h2
          · exact hg
          · exact hg
          · exact hins pam cidr bitmap _ hg hget (List.length_set bitmap pos false)
